import Mathlib

/-!
Verification development for a small linear-algebra engine written in Rust
(LU / QR factorizations, tridiagonal characteristic polynomials) that is
generic over a numeric-value trait, with concrete numeric types: an
arbitrary-precision integer (`LongInt`), a reduced fraction (`Fraction<T>`),
complex numbers, and machine floats.

The definitions below are a shallow embedding of the source:
* `LongInt` (src/longint.rs) is embedded byte-for-byte: a sign flag plus a
  little-endian list of base-256 digits.  `u8`/`u16` arithmetic is modelled
  on `Nat` with explicit `% 256` where the source casts.  The Rust
  `panic!("Division by zero!")` is modelled by returning `none`.
* `Matrix<T>` (src/matrix.rs), `Polynome<T>` (src/poly.rs), the LU engine
  (src/lu.rs), the QR engine (src/qr.rs) and the characteristic-polynomial
  engine (src/eigen.rs) are embedded at the numeric instance `ℚ`: the source
  is generic over a numeric trait whose real-scalar instance (`f32`) has
  `norm_squared = x*x`, `norm = sqrt (x*x)`, `conjugate = id`,
  `absolute = |x|`.  Every concrete input appearing in a theorem below keeps
  all intermediate values in the subring of dyadic rationals on which IEEE
  `f32` arithmetic (including `sqrt` of perfect squares) is exact, so `ℚ`
  with `Rat.sqrt` is a faithful model of the source at those inputs.
* `Fraction<T>` (src/fraction.rs) is embedded at an integer instance `ℤ`
  with Rust's truncated division/remainder (`Int.tdiv` / `Int.tmod`).

Rust `for` loops are folds over `List.range` in the source's iteration
order; loops that run an index descending keep the source's
`let i = len - i - 1` re-indexing.
-/

namespace VMLA

/-- `Vec::resize(n, 0)`: truncate to `n` elements or pad with zeros. -/
def listResize (l : List Nat) (n : Nat) : List Nat :=
  l.take n ++ List.replicate (n - l.length) 0

/-- `LongInt` (src/longint.rs): little-endian base-256 digits plus a sign
flag.  Digits are `u8` values modelled as `Nat`. -/
structure LongInt where
  digits : List Nat
  positive : Bool
deriving Repr, DecidableEq

namespace LongInt

/-- `LongInt::new()`: empty digits, positive sign. -/
def new : LongInt := ⟨[], true⟩

/-- `LongInt::get(ind)`: digit at `ind`, `0` when out of range. -/
def get (a : LongInt) (ind : Nat) : Nat := a.digits.getD ind 0

/-- `LongInt::abs()`: same digits, positive sign. -/
def abs (a : LongInt) : LongInt := ⟨a.digits, true⟩

/-- `Neg for LongInt`: same digits, flipped sign (also on zero). -/
def neg (a : LongInt) : LongInt := ⟨a.digits, !a.positive⟩

/-- Index (from the low end) of the last nonzero digit, if any.  Used to
model the source's descending scans in `trim` and `actual_length`. -/
def lastNonzeroIdx : List Nat → Option Nat
  | [] => none
  | d :: rest =>
    match lastNonzeroIdx rest with
    | some i => some (i + 1)
    | none => if d ≠ 0 then some 0 else none

/-- `LongInt::trim()`: resize down to just past the last nonzero digit;
when every digit is zero the loop finds nothing and the digits are left
unchanged (the source's early-`return` never fires). -/
def trim (a : LongInt) : LongInt :=
  match lastNonzeroIdx a.digits with
  | some i => ⟨listResize a.digits (i + 1), a.positive⟩
  | none => a

/-- `LongInt::actual_length()`: index of the most significant nonzero digit
plus one, `0` when all digits are zero. -/
def actualLength (a : LongInt) : Nat :=
  match lastNonzeroIdx a.digits with
  | some i => i + 1
  | none => 0

/-- `LongInt::get_bit(bit)`: test one bit of the magnitude
(`(digits[digit] & mask) >> bit == 1`), `false` out of range. -/
def getBit (a : LongInt) (bit : Nat) : Bool :=
  let digit := bit / 8
  let b := bit - digit * 8
  if digit ≥ a.digits.length then false
  else ((a.get digit &&& (1 <<< b)) >>> b) == 1

/-- `LongInt::set_bit(bit, val)`: grow if needed, clear the bit
(`digits[digit] &= !mask`, with `!mask = 255 - mask` on `u8`), then set it
when `val` holds. -/
def setBit (a : LongInt) (bit : Nat) (val : Bool) : LongInt :=
  let digit := bit / 8
  let b := bit - digit * 8
  let ds := if a.digits.length ≤ digit then listResize a.digits (digit + 1) else a.digits
  let cleared := ds.getD digit 0 &&& (255 - (1 <<< b))
  ⟨ds.set digit (if val then cleared ||| (1 <<< b) else cleared), a.positive⟩

/-- `LongInt::shift_left(by_digits)`: append `by_digits` zeros, then copy
each digit up by `by_digits`, scanning from the top.  The source does not
zero the vacated low positions; only `shift_left(0)` (a no-op) is ever
reached from `bit_shift_left(1)`. -/
def shiftLeftDigits (a : LongInt) (byDigits : Nat) : LongInt :=
  let oldLen := a.digits.length
  let ds := listResize a.digits (oldLen + byDigits)
  let ds := (List.range oldLen).foldl
    (fun ds k =>
      let i := oldLen - k - 1
      ds.set (i + byDigits) (ds.getD i 0)) ds
  ⟨ds, a.positive⟩

/-- `LongInt::bit_shift_left(by_bits)`: note the source masks the bit part
with `& 3` (not `& 7`); it is only ever called with `by_bits = 1`, where the
two agree.  The per-digit shift widens to `u16` and propagates the high
byte as a carry into the next digit. -/
def bitShiftLeft (a : LongInt) (byBits : Nat) : LongInt :=
  let digitShift := byBits >>> 3
  let bitShift := byBits &&& 3
  let a := a.shiftLeftDigits digitShift
  let oldLen := a.digits.length
  let ds0 := listResize a.digits (oldLen + 1)
  let ds := (List.range oldLen).foldl
    (fun ds k =>
      let i := oldLen - k - 1
      let shifted := ds.getD i 0 <<< bitShift
      let carry := shifted >>> 8
      let ds := ds.set (i + 1) (ds.getD (i + 1) 0 ||| carry)
      ds.set i (shifted &&& 255)) ds0
  ⟨ds, a.positive⟩

/-- `PartialEq for LongInt`: digit vectors and signs compared verbatim. -/
def beq (a b : LongInt) : Bool :=
  a.digits == b.digits && a.positive == b.positive

end LongInt

/-- `ord_ignore_sign`, scanning digits from index `len - 1` down to `0` and
returning at the first difference. -/
def ordDigitsDesc (a b : LongInt) : Nat → Ordering
  | 0 => .eq
  | i + 1 =>
    match compare (a.get i) (b.get i) with
    | .eq => ordDigitsDesc a b i
    | o => o

/-- `ord_ignore_sign(a, b)` (src/longint.rs): magnitude comparison,
most-significant digit first, missing digits read as `0`. -/
def ordIgnoreSign (a b : LongInt) : Ordering :=
  ordDigitsDesc a b (max a.digits.length b.digits.length)

/-- `PartialOrd for LongInt`: sign-aware comparison (always `Some` in the
source, so modelled as a total `Ordering`). -/
def LongInt.cmp (a b : LongInt) : Ordering :=
  if a.positive && !b.positive then .gt
  else if !a.positive && b.positive then .lt
  else ordIgnoreSign a b

/-- `x.abs().to_le_bytes()` for an `i32` magnitude. -/
def leBytes4 (n : Nat) : List Nat :=
  [n % 256, n / 256 % 256, n / 256 ^ 2 % 256, n / 256 ^ 3 % 256]

/-- `From<i32> for LongInt`: always exactly the four little-endian bytes of
the magnitude, sign from `x >= 0`; no trimming.  (Model domain: `i32`
values, `|x| < 2^31.)` -/
def LongInt.fromInt (x : Int) : LongInt :=
  ⟨leBytes4 x.natAbs, decide (0 ≤ x)⟩

/-- `add_ignore_sign` (src/longint.rs): schoolbook byte addition with a
`u16` carry; the final result is trimmed and positive. -/
def addIgnoreSign (a b : LongInt) : LongInt :=
  let len := max a.digits.length b.digits.length
  let vc := (List.range len).foldl
    (fun (acc : List Nat × Nat) i =>
      let sum := a.get i + b.get i + acc.2
      (acc.1 ++ [sum % 256], sum >>> 8)) ([], 0)
  let v := if vc.2 ≠ 0 then vc.1 ++ [vc.2 % 256] else vc.1
  LongInt.trim ⟨v, true⟩

/-- The `Ordering::Greater` arm of `sub_ignore_sign`: walk the digits from
the low end; on a digit borrow, add `256^(i+1)` to (a copy of) `b` and push
`a[i] + 255 - b[i]` — the source uses `u8::MAX` (255) where a correct
borrow needs 256. -/
def subIgnoreSignGo (a b : LongInt) : LongInt :=
  let len := max a.digits.length b.digits.length
  let vb := (List.range len).foldl
    (fun (acc : List Nat × LongInt) i =>
      let b := acc.2
      if a.get i < b.get i then
        let carry : LongInt := ⟨(List.replicate (i + 2) 0).set (i + 1) 1, true⟩
        let b' := addIgnoreSign b carry
        (acc.1 ++ [(a.get i + 255 - b'.get i) % 256], b')
      else
        (acc.1 ++ [a.get i - b.get i], b)) ([], b)
  LongInt.trim ⟨vb.1, true⟩

/-- `sub_ignore_sign` (src/longint.rs): on `Less` the source recurses once
with the operands swapped (where the `Greater` arm is then taken, since
`ord_ignore_sign` is antisymmetric) and negates; on `Equal` it returns
`0.into()` — the untrimmed four-byte zero. -/
def subIgnoreSign (a b : LongInt) : LongInt :=
  match ordIgnoreSign a b with
  | .lt => (subIgnoreSignGo b a).neg
  | .eq => LongInt.fromInt 0
  | .gt => subIgnoreSignGo a b

/-- `Add for LongInt` (all four owned/borrowed impls are identical): 4-way
sign dispatch onto the magnitude helpers. -/
def longAdd (a b : LongInt) : LongInt :=
  if a.positive && b.positive then addIgnoreSign a b
  else if a.positive && !b.positive then subIgnoreSign a b
  else if !a.positive && b.positive then (subIgnoreSign a b).neg
  else (addIgnoreSign a b).neg

/-- `Sub for LongInt`: 4-way sign dispatch. -/
def longSub (a b : LongInt) : LongInt :=
  if a.positive && b.positive then subIgnoreSign a b
  else if a.positive && !b.positive then addIgnoreSign a b
  else if !a.positive && b.positive then (addIgnoreSign a b).neg
  else (subIgnoreSign a b).neg

/-- `mul_ignore_sign` (src/longint.rs): schoolbook digit products with a
`u16` accumulator; each partial row is combined with `&res + &c` (the
signed `Add`, both operands positive here). -/
def mulIgnoreSign (a b : LongInt) : LongInt :=
  let res := (List.range b.digits.length).foldl
    (fun (res : LongInt) i =>
      let d := b.get i
      let c0 := List.replicate (i + a.digits.length + 1) 0
      let cc := (List.range a.digits.length).foldl
        (fun (acc : List Nat × Nat) j =>
          let mul := a.get j * d + acc.2
          (acc.1.set (i + j) (mul &&& 255), mul >>> 8)) (c0, 0)
      let c := cc.1.set (i + a.digits.length) (cc.2 % 256)
      longAdd res ⟨c, true⟩) (LongInt.fromInt 0)
  res.trim

/-- `Mul for LongInt`: sign is the XOR of the operand signs. -/
def longMul (a b : LongInt) : LongInt :=
  if a.positive && b.positive then mulIgnoreSign a b
  else if a.positive && !b.positive then (mulIgnoreSign a b).neg
  else if !a.positive && b.positive then (mulIgnoreSign a b).neg
  else mulIgnoreSign a b

/-- `div_ignore_sign` (src/longint.rs): `none` models
`panic!("Division by zero!")`, raised only when `d` is `PartialEq`-equal to
`LongInt::from(0)` (digits `[0,0,0,0]`, positive).  When the dividend's
magnitude is smaller the source returns `(0.into(), n.clone())` — the
remainder keeps `n`'s digits and sign.  Otherwise: binary restoring
division over `actual_length * 8` bits; the comparison `&r >= &d` and the
subtraction `&r - d` are the sign-aware operator impls. -/
def divIgnoreSign (n d : LongInt) : Option (LongInt × LongInt) :=
  if LongInt.beq d (LongInt.fromInt 0) then none
  else if ordIgnoreSign n d = .lt then some (LongInt.fromInt 0, ⟨n.digits, n.positive⟩)
  else
    let lenInBits := n.actualLength * 8
    let qr := (List.range lenInBits).foldl
      (fun (acc : LongInt × LongInt) k =>
        let i := lenInBits - k - 1
        let r := (acc.2.bitShiftLeft 1).setBit 0 (n.getBit i)
        if (r.cmp d) ≠ .lt then ((acc.1.setBit i true), longSub r d)
        else (acc.1, r)) (LongInt.fromInt 0, LongInt.fromInt 0)
    some (qr.1.trim, qr.2.trim)

/-- `Div for LongInt`: quotient sign is the XOR of the operand signs;
`none` propagates the division-by-zero panic. -/
def longDiv (a b : LongInt) : Option LongInt :=
  if a.positive && b.positive then (divIgnoreSign a b).map (·.1)
  else if a.positive && !b.positive then (divIgnoreSign a b).map (fun p => p.1.neg)
  else if !a.positive && b.positive then (divIgnoreSign a b).map (fun p => p.1.neg)
  else (divIgnoreSign a b).map (·.1)

/-- `Rem for LongInt` (all four impls): the raw second component of
`div_ignore_sign`, no sign adjustment. -/
def longRem (a b : LongInt) : Option LongInt :=
  (divIgnoreSign a b).map (·.2)

/-- Numeric magnitude denoted by a little-endian base-256 digit list
(the representation's meaning, spec §4.3). -/
def digitsVal : List Nat → Nat
  | [] => 0
  | d :: rest => d + 256 * digitsVal rest

/-- A `LongInt` denotes the value zero iff its magnitude is zero,
whatever the digit list or sign look like. -/
def LongInt.isZeroValue (a : LongInt) : Bool := digitsVal a.digits == 0

/-- The representation shape actually maintained by the arithmetic
routines: digits empty, or ending in a nonzero digit, or consisting
entirely of zeros (`trim` leaves an all-zero vector unchanged). -/
def shapeOk (a : LongInt) : Bool :=
  a.digits.isEmpty || !(a.digits.getLastD 0 == 0) || a.digits.all (· == 0)

/-! Helper lemmas about `lastNonzeroIdx` and `trim`. -/

theorem lastNonzeroIdx_none {l : List Nat} (h : LongInt.lastNonzeroIdx l = none) :
    ∀ d ∈ l, d = 0 := by
  induction l with
  | nil => intro d hd; cases hd
  | cons d rest ih =>
    intro e he
    unfold LongInt.lastNonzeroIdx at h
    cases hrec : LongInt.lastNonzeroIdx rest with
    | some i => rw [hrec] at h; cases h
    | none =>
      rw [hrec] at h
      by_cases hd : d ≠ 0
      · simp [hd] at h
      · push_neg at hd
        cases he with
        | head => exact hd
        | tail _ he => exact ih hrec e he

theorem lastNonzeroIdx_some {l : List Nat} {i : Nat}
    (h : LongInt.lastNonzeroIdx l = some i) : i < l.length ∧ l.getD i 0 ≠ 0 := by
  induction l generalizing i with
  | nil => cases h
  | cons d rest ih =>
    unfold LongInt.lastNonzeroIdx at h
    cases hrec : LongInt.lastNonzeroIdx rest with
    | some j =>
      rw [hrec] at h
      cases h
      have := ih hrec
      exact ⟨by simpa using Nat.succ_lt_succ this.1, by simpa using this.2⟩
    | none =>
      rw [hrec] at h
      by_cases hd : d ≠ 0
      · rw [if_pos hd] at h
        cases h
        exact ⟨Nat.succ_pos _, by simpa using hd⟩
      · rw [if_neg hd] at h
        cases h

theorem trim_positive (a : LongInt) : a.trim.positive = a.positive := by
  unfold LongInt.trim
  cases h : LongInt.lastNonzeroIdx a.digits <;> simp

theorem trim_digits_of_none {a : LongInt}
    (h : LongInt.lastNonzeroIdx a.digits = none) : a.trim = a := by
  unfold LongInt.trim
  rw [h]

theorem getLastD_take_succ {l : List Nat} {i : Nat} (dflt : Nat) (h : i < l.length) :
    (l.take (i + 1)).getLastD dflt = l.getD i 0 := by
  induction l generalizing i dflt with
  | nil => simp at h
  | cons d rest ih =>
    cases i with
    | zero => simp [List.getD]
    | succ j =>
      have hj : j < rest.length := by simpa using h
      simp only [List.take_succ_cons, List.getLastD_cons, List.getD_cons_succ]
      exact ih d hj

theorem shapeOk_trim (a : LongInt) : shapeOk a.trim = true := by
  unfold LongInt.trim
  cases h : LongInt.lastNonzeroIdx a.digits with
  | none =>
    have hall := lastNonzeroIdx_none h
    unfold shapeOk
    simp only [Bool.or_eq_true, List.all_eq_true]
    right
    intro d hd
    simpa using hall d hd
  | some i =>
    obtain ⟨hlen, hval⟩ := lastNonzeroIdx_some h
    unfold shapeOk listResize
    simp only [Bool.or_eq_true]
    left; right
    have hrep : (i + 1) - a.digits.length = 0 := by omega
    rw [hrep]
    simp only [List.replicate_zero, List.append_nil]
    rw [getLastD_take_succ 0 hlen]
    simpa using hval

theorem shapeOk_of_digits_eq {a b : LongInt} (h : a.digits = b.digits)
    (hb : shapeOk b = true) : shapeOk a = true := by
  unfold shapeOk at *
  rw [h]
  exact hb

theorem shapeOk_fromInt_zero : shapeOk (LongInt.fromInt 0) = true := by decide

theorem shapeOk_addIgnoreSign (a b : LongInt) : shapeOk (addIgnoreSign a b) = true :=
  shapeOk_trim _

theorem shapeOk_subIgnoreSignGo (a b : LongInt) : shapeOk (subIgnoreSignGo a b) = true :=
  shapeOk_trim _

theorem shapeOk_subIgnoreSign (a b : LongInt) : shapeOk (subIgnoreSign a b) = true := by
  unfold subIgnoreSign
  cases h : ordIgnoreSign a b
  · exact shapeOk_of_digits_eq (by simp [LongInt.neg]) (shapeOk_subIgnoreSignGo b a)
  · exact shapeOk_fromInt_zero
  · exact shapeOk_subIgnoreSignGo a b

theorem shapeOk_longAdd (a b : LongInt) : shapeOk (longAdd a b) = true := by
  unfold longAdd
  split
  · exact shapeOk_addIgnoreSign a b
  · split
    · exact shapeOk_subIgnoreSign a b
    · split
      · exact shapeOk_of_digits_eq (by simp [LongInt.neg]) (shapeOk_subIgnoreSign a b)
      · exact shapeOk_of_digits_eq (by simp [LongInt.neg]) (shapeOk_addIgnoreSign a b)

theorem shapeOk_longSub (a b : LongInt) : shapeOk (longSub a b) = true := by
  unfold longSub
  split
  · exact shapeOk_subIgnoreSign a b
  · split
    · exact shapeOk_addIgnoreSign a b
    · split
      · exact shapeOk_of_digits_eq (by simp [LongInt.neg]) (shapeOk_addIgnoreSign a b)
      · exact shapeOk_of_digits_eq (by simp [LongInt.neg]) (shapeOk_subIgnoreSign a b)

theorem shapeOk_mulIgnoreSign (a b : LongInt) : shapeOk (mulIgnoreSign a b) = true :=
  shapeOk_trim _

theorem shapeOk_longMul (a b : LongInt) : shapeOk (longMul a b) = true := by
  unfold longMul
  split
  · exact shapeOk_mulIgnoreSign a b
  · split
    · exact shapeOk_of_digits_eq (by simp [LongInt.neg]) (shapeOk_mulIgnoreSign a b)
    · split
      · exact shapeOk_of_digits_eq (by simp [LongInt.neg]) (shapeOk_mulIgnoreSign a b)
      · exact shapeOk_mulIgnoreSign a b

/-! Sign lemmas used for the remainder's sign behaviour. -/

theorem addIgnoreSign_positive (a b : LongInt) : (addIgnoreSign a b).positive = true := by
  unfold addIgnoreSign
  rw [trim_positive]

theorem subIgnoreSignGo_positive (a b : LongInt) : (subIgnoreSignGo a b).positive = true := by
  unfold subIgnoreSignGo
  rw [trim_positive]

theorem subIgnoreSign_positive {a b : LongInt} (h : ordIgnoreSign a b ≠ .lt) :
    (subIgnoreSign a b).positive = true := by
  unfold subIgnoreSign
  cases ho : ordIgnoreSign a b
  · exact absurd ho h
  · rfl
  · exact subIgnoreSignGo_positive a b

theorem bitShiftLeft_positive (a : LongInt) (k : Nat) :
    (a.bitShiftLeft k).positive = a.positive := rfl

theorem setBit_positive (a : LongInt) (bit : Nat) (v : Bool) :
    (a.setBit bit v).positive = a.positive := rfl

theorem longSub_positive {r d : LongInt} (hr : r.positive = true)
    (hge : r.cmp d ≠ .lt) : (longSub r d).positive = true := by
  unfold longSub
  cases hd : d.positive
  · simp only [hr, hd, Bool.not_false, Bool.and_true, Bool.and_false, Bool.true_and,
      if_false, if_true, ite_true, ite_false, Bool.false_eq_true]
    exact addIgnoreSign_positive r d
  · have hord : ordIgnoreSign r d ≠ .lt := by
      unfold LongInt.cmp at hge
      simpa [hr, hd] using hge
    rw [if_pos (by simp [hr, hd])]
    exact subIgnoreSign_positive hord

/-- Invariant preservation along a `foldl` (the source's `for` loops). -/
theorem foldl_preserve {α : Type} {P : α → Prop} (f : α → Nat → α)
    (hf : ∀ a k, P a → P (f a k)) :
    ∀ (l : List Nat) (a : α), P a → P (l.foldl f a) := by
  intro l
  induction l with
  | nil => intro a ha; exact ha
  | cons k rest ih => intro a ha; exact ih (f a k) (hf a k ha)

/-- The running remainder of `div_ignore_sign`'s bit loop always keeps a
positive sign: it starts from `0.into()`, the shifts and bit writes do not
touch the sign, and the guarded subtraction `&r - d` lands in a
positive-producing branch whenever the guard `&r >= &d` held. -/
theorem divLoop_snd_positive (n d : LongInt) (lenInBits : Nat) (l : List Nat)
    (q r : LongInt) (hr : r.positive = true) :
    ((l.foldl (fun (acc : LongInt × LongInt) k =>
        let i := lenInBits - k - 1
        let r := (acc.2.bitShiftLeft 1).setBit 0 (n.getBit i)
        if (r.cmp d) ≠ .lt then ((acc.1.setBit i true), longSub r d)
        else (acc.1, r)) (q, r)).2).positive = true := by
  have step : ∀ (acc : LongInt × LongInt) (k : Nat), acc.2.positive = true →
      ((fun (acc : LongInt × LongInt) k =>
        let i := lenInBits - k - 1
        let r := (acc.2.bitShiftLeft 1).setBit 0 (n.getBit i)
        if (r.cmp d) ≠ .lt then ((acc.1.setBit i true), longSub r d)
        else (acc.1, r)) acc k).2.positive = true := by
    intro acc k hacc
    simp only
    have hrp : ((acc.2.bitShiftLeft 1).setBit 0 (n.getBit (lenInBits - k - 1))).positive
        = true := by
      rw [setBit_positive, bitShiftLeft_positive]
      exact hacc
    split
    · exact longSub_positive hrp (by assumption)
    · exact hrp
  exact foldl_preserve _ step l (q, r) hr

theorem divIgnoreSign_eq_none_iff (n d : LongInt) :
    divIgnoreSign n d = none ↔ LongInt.beq d (LongInt.fromInt 0) = true := by
  unfold divIgnoreSign
  by_cases hz : LongInt.beq d (LongInt.fromInt 0) = true
  · simp [hz]
  · simp only [hz, Bool.false_eq_true, if_false]
    constructor
    · intro h
      split at h <;> cases h
    · intro h
      exact absurd h (by simp [hz])

theorem fromInt_zero_eq : LongInt.fromInt 0 = ⟨[0, 0, 0, 0], true⟩ := rfl

theorem optionAll_map_some {α β : Type} (p : β → Bool) (f : α → β) (x : α) :
    Option.all p (Option.map f (some x)) = p (f x) := rfl

theorem longint_eta (a : LongInt) : (⟨a.digits, a.positive⟩ : LongInt) = a := rfl

theorem shapeOk_divIgnoreSign_fst (n d : LongInt) :
    Option.all shapeOk ((divIgnoreSign n d).map (·.1)) = true ∧
    Option.all shapeOk ((divIgnoreSign n d).map (fun p => p.1.neg)) = true := by
  unfold divIgnoreSign
  by_cases hz : LongInt.beq d (LongInt.fromInt 0) = true
  · simp [hz]
  · rw [if_neg hz]
    by_cases hlt : ordIgnoreSign n d = .lt
    · rw [if_pos hlt]
      rw [optionAll_map_some, optionAll_map_some]
      exact ⟨shapeOk_fromInt_zero, shapeOk_of_digits_eq rfl shapeOk_fromInt_zero⟩
    · rw [if_neg hlt]
      rw [optionAll_map_some, optionAll_map_some]
      exact ⟨shapeOk_trim _, shapeOk_of_digits_eq rfl (shapeOk_trim _)⟩

theorem rem_shape (a b : LongInt) :
    Option.all (fun r => shapeOk r || r == a) (longRem a b) = true := by
  unfold longRem divIgnoreSign
  by_cases hz : LongInt.beq b (LongInt.fromInt 0) = true
  · simp [hz]
  · rw [if_neg hz]
    by_cases hlt : ordIgnoreSign a b = .lt
    · rw [if_pos hlt, optionAll_map_some]
      show (shapeOk ⟨a.digits, a.positive⟩ || (⟨a.digits, a.positive⟩ == a)) = true
      rw [longint_eta, Bool.or_eq_true]
      right
      simp
    · rw [if_neg hlt, optionAll_map_some]
      show (shapeOk _ || _) = true
      rw [Bool.or_eq_true]
      left
      exact shapeOk_trim _

/-- C5 — the spec's round-trip identities `(a+b)−b == a` and
`(a*b)/b == a` fail on the code: `(1+255)−255` evaluates to the (untrimmed)
zero because `sub_ignore_sign` compensates a borrow with `u8::MAX` (255)
instead of 256; `(1+1)−1` produces digits `[1]` which `PartialEq` (verbatim
digit comparison) distinguishes from `LongInt::from(1) = [1,0,0,0]`; and
`(1*(−1))/(−1)` returns 255 because `div_ignore_sign`'s `&r >= &d` and
`&r - d` are sign-aware, so a negative divisor is never subtracted. -/
theorem claim_C5 :
    longSub (longAdd (LongInt.fromInt 1) (LongInt.fromInt 255)) (LongInt.fromInt 255)
      = ⟨[0, 0, 0, 0], true⟩ ∧
    LongInt.beq (longSub (longAdd (LongInt.fromInt 1) (LongInt.fromInt 255))
        (LongInt.fromInt 255)) (LongInt.fromInt 1) = false ∧
    longSub (longAdd (LongInt.fromInt 1) (LongInt.fromInt 1)) (LongInt.fromInt 1)
      = ⟨[1], true⟩ ∧
    LongInt.beq (longSub (longAdd (LongInt.fromInt 1) (LongInt.fromInt 1))
        (LongInt.fromInt 1)) (LongInt.fromInt 1) = false ∧
    longDiv (longMul (LongInt.fromInt 1) (LongInt.fromInt (-1))) (LongInt.fromInt (-1))
      = some ⟨[255], true⟩ :=
  ⟨rfl, rfl, rfl, rfl, rfl⟩

/-- C6 (counterexample) — `From<i32>` keeps all four little-endian bytes,
so `LongInt::from(1)` is a nonzero value whose digit sequence ends in a
zero digit, and negation of `From(0)` yields a negatively-signed zero:
both contradict the claimed representation invariant. -/
theorem claim_C6_counterexample :
    LongInt.fromInt 1 = ⟨[1, 0, 0, 0], true⟩ ∧
    digitsVal (LongInt.fromInt 1).digits ≠ 0 ∧
    (LongInt.fromInt 1).digits.getLastD 1 = 0 ∧
    (LongInt.fromInt 0).neg = ⟨[0, 0, 0, 0], false⟩ :=
  ⟨rfl, by decide, rfl, rfl⟩

/-- C6 (amended) — what the constructors and operations actually maintain:
`new()` is the canonical zero; `From<i32>` always carries exactly four
digits (trailing zeros included); every arithmetic result is either
trimmed (empty or ending in a nonzero digit) or an all-zero digit vector
(`trim` does not shrink a vector with no nonzero digit, and `0.into()` is
four zero bytes); a remainder may additionally be a verbatim clone of the
dividend; negation and absolute value reuse the operand's digits. -/
theorem claim_C6 (a b : LongInt) (x : Int) :
    LongInt.new = ⟨[], true⟩ ∧
    (LongInt.fromInt x).digits.length = 4 ∧
    shapeOk (longAdd a b) = true ∧
    shapeOk (longSub a b) = true ∧
    shapeOk (longMul a b) = true ∧
    Option.all shapeOk (longDiv a b) = true ∧
    Option.all (fun r => shapeOk r || r == a) (longRem a b) = true ∧
    a.neg.digits = a.digits ∧
    a.abs.digits = a.digits := by
  refine ⟨rfl, rfl, shapeOk_longAdd a b, shapeOk_longSub a b, shapeOk_longMul a b,
    ?_, rem_shape a b, rfl, rfl⟩
  obtain ⟨h1, h2⟩ := shapeOk_divIgnoreSign_fst a b
  unfold longDiv
  split
  · exact h1
  · split
    · exact h2
    · split
      · exact h2
      · exact h1

set_option maxRecDepth 10000 in
/-- C9 (counterexample) — `LongInt::new()` denotes the value zero, yet
dividing by it does not panic: the panic guard compares the divisor with
`PartialEq` against `LongInt::from(0)` (digits `[0,0,0,0]`), which the
empty digit vector fails, and the division loop then returns a value. -/
theorem claim_C9_counterexample :
    LongInt.isZeroValue LongInt.new = true ∧
    longDiv (LongInt.fromInt 1) LongInt.new = some ⟨[255], true⟩ :=
  ⟨rfl, rfl⟩

/-- C9 (amended) — division aborts (modelled as `none`) exactly when the
divisor's representation is verbatim `LongInt::from(0)`: digits
`[0,0,0,0]` and a positive sign.  Any other representation of zero is not
detected. -/
theorem claim_C9 (n d : LongInt) :
    longDiv n d = none ↔ (d.digits = [0, 0, 0, 0] ∧ d.positive = true) := by
  have hbeq : LongInt.beq d (LongInt.fromInt 0) = true
      ↔ (d.digits = [0, 0, 0, 0] ∧ d.positive = true) := by
    rw [fromInt_zero_eq]
    unfold LongInt.beq
    simp
  have key : ∀ (f : LongInt × LongInt → LongInt),
      ((divIgnoreSign n d).map f = none ↔ (d.digits = [0, 0, 0, 0] ∧ d.positive = true)) := by
    intro f
    rw [Option.map_eq_none']
    exact (divIgnoreSign_eq_none_iff n d).trans hbeq
  unfold longDiv
  split
  · exact key _
  · split
    · exact key _
    · split
      · exact key _
      · exact key _

set_option maxRecDepth 10000 in
/-- C10 (counterexample) — `%` neither always returns a positively-signed
result nor the remainder of the magnitudes: `(−1) % 2` is the verbatim
clone of `−1` (negative sign), and `300 % 200` evaluates to 99 although
`|300| mod |200| = 100` (the borrow in `sub_ignore_sign` is off by one). -/
theorem claim_C10_counterexample :
    longRem (LongInt.fromInt (-1)) (LongInt.fromInt 2) = some ⟨[1, 0, 0, 0], false⟩ ∧
    longRem (LongInt.fromInt 300) (LongInt.fromInt 200) = some ⟨[99], true⟩ ∧
    (300 : Nat) % 200 = 100 :=
  ⟨rfl, rfl, rfl⟩

/-- What a `%` result actually satisfies: a verbatim clone of the dividend
when the dividend's magnitude compares below the divisor's, otherwise a
positive sign. -/
def remOk (a b : LongInt) (r : LongInt) : Bool :=
  if ordIgnoreSign a b = .lt then r == a else r.positive

/-- C10 (amended) — `%` aborts exactly when the divisor is verbatim
`LongInt::from(0)`; when the dividend's magnitude is smaller than the
divisor's it returns `n.clone()`, preserving the dividend's digits and
sign; in every other case the returned remainder carries a positive
sign. -/
theorem claim_C10 (a b : LongInt) :
    Option.all (remOk a b) (longRem a b) = true ∧
    (longRem a b = none ↔ LongInt.beq b (LongInt.fromInt 0) = true) := by
  constructor
  · unfold longRem divIgnoreSign
    by_cases hz : LongInt.beq b (LongInt.fromInt 0) = true
    · simp [hz]
    · rw [if_neg hz]
      by_cases hlt : ordIgnoreSign a b = .lt
      · rw [if_pos hlt, optionAll_map_some]
        show remOk a b ⟨a.digits, a.positive⟩ = true
        unfold remOk
        rw [if_pos hlt, longint_eta]
        simp
      · rw [if_neg hlt, optionAll_map_some]
        show remOk a b _ = true
        unfold remOk
        rw [if_neg hlt, trim_positive]
        exact divLoop_snd_positive a b (a.actualLength * 8) _ _ _ rfl
  · unfold longRem
    rw [Option.map_eq_none']
    exact divIgnoreSign_eq_none_iff a b

/-! ### `Fraction<T>` (src/fraction.rs) at an integer instance

The source is generic over an integer-like `T` with `%` and `/`; at a
primitive-integer instance Rust's `%` is the truncated remainder and `/`
the truncated quotient, so the embedding uses `Int.tmod` / `Int.tdiv`.
`0.0.into()` is the integer zero and `absolute()` the absolute value. -/

/-- `|a tmod b| = |a| % |b|`: Rust's truncated remainder on magnitudes. -/
theorem natAbs_tmod (a b : Int) : (a.tmod b).natAbs = a.natAbs % b.natAbs := by
  cases a with
  | ofNat m =>
    cases b with
    | ofNat n => rfl
    | negSucc n => rfl
  | negSucc m =>
    cases b with
    | ofNat n =>
      show (-(Int.ofNat (Nat.succ m % n))).natAbs = Nat.succ m % n
      rw [Int.natAbs_neg]
      rfl
    | negSucc n =>
      show (-(Int.ofNat (Nat.succ m % Nat.succ n))).natAbs = Nat.succ m % Nat.succ n
      rw [Int.natAbs_neg]
      rfl

/-- `Fraction::gcd` (src/fraction.rs): `while b != 0 { t = b; b = a % b; a = t }`. -/
def fracGcd (a b : Int) : Int :=
  if h : b = 0 then a else fracGcd b (a.tmod b)
termination_by b.natAbs
decreasing_by
  have hb : b.natAbs ≠ 0 := Int.natAbs_ne_zero.mpr h
  rw [natAbs_tmod]
  exact Nat.mod_lt _ (Nat.pos_of_ne_zero hb)

/-- `Fraction<T>` at the integer instance: numerator, denominator. -/
structure Fraction where
  num : Int
  den : Int
deriving Repr, DecidableEq

/-- `Fraction::simplify`: divide both components by the Euclidean gcd of
the (signed) numerator and the denominator. -/
def Fraction.simplify (f : Fraction) : Fraction :=
  let g := fracGcd f.num f.den
  ⟨f.num.tdiv g, f.den.tdiv g⟩

/-- `Fraction::new(den, num)` — note the source's argument order: the
denominator comes first.  Both components are made non-negative, the
numerator is negated when exactly one argument was negative, then the
result is reduced via `simplify`. -/
def Fraction.new (den num : Int) : Fraction :=
  let sign := (decide (0 ≤ den)) == (decide (0 ≤ num))
  let res : Fraction :=
    if sign then ⟨(num.natAbs : Int), (den.natAbs : Int)⟩
    else ⟨-(num.natAbs : Int), (den.natAbs : Int)⟩
  res.simplify

/-- The absolute value of `Fraction::gcd`'s result is the mathematical gcd:
the truncated remainder keeps the gcd invariant step by step. -/
theorem fracGcd_natAbs (a b : Int) : (fracGcd a b).natAbs = Int.gcd a b := by
  induction a, b using fracGcd.induct with
  | case1 a =>
    rw [fracGcd, dif_pos rfl]
    simp [Int.gcd]
  | case2 a b hb0 ih =>
    rw [fracGcd, dif_neg hb0, ih]
    unfold Int.gcd
    rw [natAbs_tmod, Nat.gcd_comm b.natAbs (a.natAbs % b.natAbs), ← Nat.gcd_rec,
      Nat.gcd_comm]

/-- On non-negative inputs `Fraction::gcd` stays non-negative. -/
theorem fracGcd_nonneg (a b : Int) : 0 ≤ a → 0 ≤ b → 0 ≤ fracGcd a b := by
  induction a, b using fracGcd.induct with
  | case1 a =>
    intro ha _
    rw [fracGcd, dif_pos rfl]
    exact ha
  | case2 a b hb0 ih =>
    intro ha hb
    rw [fracGcd, dif_neg hb0]
    exact ih hb (Int.tmod_nonneg _ ha)

/-- What `Fraction::simplify` guarantees on a nonzero numerator and
denominator: full reduction in absolute value, preservation of the
represented ratio, and strict positivity when both inputs were
non-negative. -/
theorem simplify_spec (n0 d0 : Int) (hn0 : n0 ≠ 0) (hd0 : d0 ≠ 0) :
    Int.gcd (Fraction.simplify ⟨n0, d0⟩).num (Fraction.simplify ⟨n0, d0⟩).den = 1 ∧
    (Fraction.simplify ⟨n0, d0⟩).num ≠ 0 ∧
    (Fraction.simplify ⟨n0, d0⟩).den ≠ 0 ∧
    (Fraction.simplify ⟨n0, d0⟩).num * d0 = n0 * (Fraction.simplify ⟨n0, d0⟩).den ∧
    (Fraction.simplify ⟨n0, d0⟩).num.natAbs * Int.gcd n0 d0 = n0.natAbs ∧
    (Fraction.simplify ⟨n0, d0⟩).den.natAbs * Int.gcd n0 d0 = d0.natAbs ∧
    (0 ≤ n0 → 0 ≤ d0 →
      0 < (Fraction.simplify ⟨n0, d0⟩).num ∧ 0 < (Fraction.simplify ⟨n0, d0⟩).den) := by
  have hfnum : (Fraction.simplify ⟨n0, d0⟩).num = n0.tdiv (fracGcd n0 d0) := rfl
  have hfden : (Fraction.simplify ⟨n0, d0⟩).den = d0.tdiv (fracGcd n0 d0) := rfl
  set g := fracGcd n0 d0 with hg
  have hgabs : g.natAbs = Int.gcd n0 d0 := fracGcd_natAbs n0 d0
  have hGpos : 0 < Int.gcd n0 d0 :=
    Nat.gcd_pos_of_pos_right _ (Int.natAbs_pos.mpr hd0)
  have hgne : g ≠ 0 := by
    intro h
    rw [h] at hgabs
    omega
  have hdvdnumN : Int.gcd n0 d0 ∣ n0.natAbs := Nat.gcd_dvd_left _ _
  have hdvddenN : Int.gcd n0 d0 ∣ d0.natAbs := Nat.gcd_dvd_right _ _
  have hdvdnum : g ∣ n0 := by
    rw [← Int.natAbs_dvd_natAbs, hgabs]
    exact hdvdnumN
  have hdvdden : g ∣ d0 := by
    rw [← Int.natAbs_dvd_natAbs, hgabs]
    exact hdvddenN
  obtain ⟨n1, hn1⟩ := hdvdnum
  obtain ⟨d1, hd1⟩ := hdvdden
  have hnumq : n0.tdiv g = n1 := by rw [hn1, Int.mul_tdiv_cancel_left _ hgne]
  have hdenq : d0.tdiv g = d1 := by rw [hd1, Int.mul_tdiv_cancel_left _ hgne]
  have hnumAbs : (n0.tdiv g).natAbs = n0.natAbs / Int.gcd n0 d0 := by
    rw [Int.natAbs_tdiv, hgabs]
    rfl
  have hdenAbs : (d0.tdiv g).natAbs = d0.natAbs / Int.gcd n0 d0 := by
    rw [Int.natAbs_tdiv, hgabs]
    rfl
  have hnumAbs_ne : (n0.tdiv g).natAbs ≠ 0 := by
    rw [hnumAbs]
    intro h
    have := Nat.div_mul_cancel hdvdnumN
    rw [h, Nat.zero_mul] at this
    exact Int.natAbs_ne_zero.mpr hn0 this.symm
  have hdenAbs_ne : (d0.tdiv g).natAbs ≠ 0 := by
    rw [hdenAbs]
    intro h
    have := Nat.div_mul_cancel hdvddenN
    rw [h, Nat.zero_mul] at this
    exact Int.natAbs_ne_zero.mpr hd0 this.symm
  refine ⟨?_, ?_, ?_, ?_, ?_, ?_, ?_⟩
  · rw [hfnum, hfden]
    unfold Int.gcd
    rw [hnumAbs, hdenAbs]
    exact Nat.coprime_div_gcd_div_gcd hGpos
  · rw [hfnum]
    exact Int.natAbs_ne_zero.mp hnumAbs_ne
  · rw [hfden]
    exact Int.natAbs_ne_zero.mp hdenAbs_ne
  · rw [hfnum, hfden, hnumq, hdenq]
    calc n1 * d0 = n1 * (g * d1) := by rw [← hd1]
    _ = g * n1 * d1 := by ring
    _ = n0 * d1 := by rw [← hn1]
  · rw [hfnum, hnumAbs]
    exact Nat.div_mul_cancel hdvdnumN
  · rw [hfden, hdenAbs]
    exact Nat.div_mul_cancel hdvddenN
  · intro hn0pos hd0pos
    have hgnn : 0 ≤ g := fracGcd_nonneg n0 d0 hn0pos hd0pos
    constructor
    · rw [hfnum]
      refine lt_of_le_of_ne (Int.tdiv_nonneg hn0pos hgnn) ?_
      intro h
      exact hnumAbs_ne (by rw [← h]; rfl)
    · rw [hfden]
      refine lt_of_le_of_ne (Int.tdiv_nonneg hd0pos hgnn) ?_
      intro h
      exact hdenAbs_ne (by rw [← h]; rfl)

theorem gcd_neg_neg (a d : Int) : Int.gcd (-a) (-d) = Int.gcd a d := by
  unfold Int.gcd
  rw [Int.natAbs_neg, Int.natAbs_neg]

/-- C7 (counterexample) — `Fraction::new(4, -2)` (denominator 4, numerator
−2): the Euclidean gcd computed on the signed numerator comes out negative
(`gcd(-2, 4) = -2` under truncated remainder), so the reduction flips both
signs and produces numerator 1, denominator −2: the denominator is
negative and the sign is not carried by the numerator. -/
theorem claim_C7_counterexample :
    Fraction.new 4 (-2) = ⟨1, -2⟩ ∧
    (Fraction.new 4 (-2)).den < 0 ∧
    0 < (Fraction.new 4 (-2)).num := by
  have hg : fracGcd (-2 : Int) 4 = -2 := by
    rw [fracGcd, dif_neg (by norm_num)]
    rw [show Int.tmod (-2) 4 = -2 by decide]
    rw [fracGcd, dif_neg (by norm_num)]
    rw [show Int.tmod 4 (-2) = 0 by decide]
    rw [fracGcd, dif_pos rfl]
  have hres : Fraction.new 4 (-2) = Fraction.simplify ⟨-2, 4⟩ := by
    unfold Fraction.new
    norm_num
  have hsimp : Fraction.simplify ⟨-2, 4⟩ = ⟨1, -2⟩ := by
    show (⟨Int.tdiv (-2) (fracGcd (-2) 4), Int.tdiv 4 (fracGcd (-2) 4)⟩ : Fraction)
      = ⟨1, -2⟩
    rw [hg]
    decide
  rw [hres, hsimp]
  exact ⟨rfl, by decide, by decide⟩

/-- C7 (amended) — for nonzero `a` (numerator) and `d` (denominator),
`Fraction::new(d, a)` always yields a fraction that is fully reduced in
absolute value (`gcd(|num|, |den|) = 1`), has nonzero components whose
magnitudes are `|a|/gcd(a,d)` and `|d|/gcd(a,d)`, and represents the exact
ratio `a/d` (`num·d = a·den`); when `a` and `d` have the same sign both
components are strictly positive.  When exactly one argument is negative
the computed gcd may itself be negative, in which case the minus sign
lands on the denominator instead of the numerator. -/
theorem claim_C7 (a d : Int) (ha : a ≠ 0) (hd : d ≠ 0) :
    Int.gcd (Fraction.new d a).num (Fraction.new d a).den = 1 ∧
    (Fraction.new d a).num ≠ 0 ∧
    (Fraction.new d a).den ≠ 0 ∧
    (Fraction.new d a).num * d = a * (Fraction.new d a).den ∧
    (Fraction.new d a).num.natAbs * Int.gcd a d = a.natAbs ∧
    (Fraction.new d a).den.natAbs * Int.gcd a d = d.natAbs ∧
    ((0 ≤ a ↔ 0 ≤ d) → 0 < (Fraction.new d a).num ∧ 0 < (Fraction.new d a).den) := by
  by_cases hda : 0 ≤ d <;> by_cases haa : 0 ≤ a
  · -- both non-negative: the constructor reduces `simplify ⟨a, d⟩`
    have hnew : Fraction.new d a = Fraction.simplify ⟨a, d⟩ := by
      unfold Fraction.new
      simp only [hda, haa, decide_True, beq_self_eq_true, if_true]
      rw [Int.natAbs_of_nonneg haa, Int.natAbs_of_nonneg hda]
    rw [hnew]
    obtain ⟨h1, h2, h3, h4, h5, h6, h7⟩ := simplify_spec a d ha hd
    exact ⟨h1, h2, h3, h4, h5, h6, fun _ => h7 haa hda⟩
  · -- d ≥ 0, a < 0: the negated magnitude of `a` is `a` itself
    have hnew : Fraction.new d a = Fraction.simplify ⟨a, d⟩ := by
      unfold Fraction.new
      simp only [hda, haa, decide_True, decide_False]
      norm_num
      rw [abs_of_nonpos (le_of_lt (lt_of_not_le haa)), abs_of_nonneg hda]
      norm_num
    rw [hnew]
    obtain ⟨h1, h2, h3, h4, h5, h6, _⟩ := simplify_spec a d ha hd
    exact ⟨h1, h2, h3, h4, h5, h6, fun hiff => absurd (hiff.mpr hda) haa⟩
  · -- d < 0, a ≥ 0: the constructor reduces `simplify ⟨-a, -d⟩`
    have hnew : Fraction.new d a = Fraction.simplify ⟨-a, -d⟩ := by
      unfold Fraction.new
      simp only [hda, haa, decide_True, decide_False]
      norm_num
      rw [abs_of_nonneg haa, abs_of_nonpos (le_of_lt (lt_of_not_le hda))]
    rw [hnew]
    obtain ⟨h1, h2, h3, h4, h5, h6, _⟩ := simplify_spec (-a) (-d)
      (by simpa using ha) (by simpa using hd)
    rw [mul_neg, neg_mul, neg_inj] at h4
    rw [gcd_neg_neg, Int.natAbs_neg] at h5
    rw [gcd_neg_neg, Int.natAbs_neg] at h6
    exact ⟨h1, h2, h3, h4, h5, h6, fun hiff => absurd (hiff.mp haa) hda⟩
  · -- both negative: same-sign, so the magnitudes `-a`, `-d` are used
    have hnew : Fraction.new d a = Fraction.simplify ⟨-a, -d⟩ := by
      unfold Fraction.new
      simp only [hda, haa, decide_False, beq_self_eq_true, if_true]
      rw [Int.ofNat_natAbs_of_nonpos (le_of_lt (lt_of_not_le haa)),
        Int.ofNat_natAbs_of_nonpos (le_of_lt (lt_of_not_le hda))]
    rw [hnew]
    obtain ⟨h1, h2, h3, h4, h5, h6, h7⟩ := simplify_spec (-a) (-d)
      (by simpa using ha) (by simpa using hd)
    rw [mul_neg, neg_mul, neg_inj] at h4
    rw [gcd_neg_neg, Int.natAbs_neg] at h5
    rw [gcd_neg_neg, Int.natAbs_neg] at h6
    refine ⟨h1, h2, h3, h4, h5, h6, fun _ => h7 ?_ ?_⟩
    · omega
    · omega

/-- C7 (witness) — the spec's concrete scenario `Fraction::new(4, 6)`. -/
theorem claim_C7_witness :
    (6 : Int) ≠ 0 ∧ (4 : Int) ≠ 0 ∧
    (Int.gcd (Fraction.new 4 6).num (Fraction.new 4 6).den = 1 ∧
      (Fraction.new 4 6).num ≠ 0 ∧
      (Fraction.new 4 6).den ≠ 0 ∧
      (Fraction.new 4 6).num * 4 = 6 * (Fraction.new 4 6).den ∧
      (Fraction.new 4 6).num.natAbs * Int.gcd 6 4 = (6 : Int).natAbs ∧
      (Fraction.new 4 6).den.natAbs * Int.gcd 6 4 = (4 : Int).natAbs ∧
      ((0 ≤ (6 : Int) ↔ 0 ≤ (4 : Int)) →
        0 < (Fraction.new 4 6).num ∧ 0 < (Fraction.new 4 6).den)) :=
  ⟨by decide, by decide, claim_C7 6 4 (by decide) (by decide)⟩

/-! ### `Matrix<T>`, `Polynome<T>` and the engines, at the real-scalar
instance `T = ℚ`

The source's numeric contract at the real instance has
`norm_squared x = x * x`, `norm x = sqrt (norm_squared x)`,
`conjugate = id` and `from(c) = c`.  `sqrt` is modelled by `Rat.sqrt`,
which agrees with IEEE `sqrt` on perfect squares of representable values —
the only points where the theorems below evaluate it.  Division is exact
field division; every concrete input below keeps all intermediates in
small dyadic rationals where `f32` arithmetic is exact. -/

/-- `Vec::resize(n, 0.0)` on scalar lists. -/
def listResizeQ (l : List ℚ) (n : Nat) : List ℚ :=
  l.take n ++ List.replicate (n - l.length) 0

/-- `norm_squared` of the real-scalar instance: `self * self`. -/
def normSq (x : ℚ) : ℚ := x * x

/-- `MatrixError` (src/matrix.rs); the file-format variants are out of
scope.  The misspelling `UnsopportedOperation` is the source's. -/
inductive MatrixError
  | NotSquare
  | NotRegular
  | SizeMismatch
  | NotTridiagonal
  | UnsopportedOperation
deriving Repr, DecidableEq

/-- `Matrix<T>` (src/matrix.rs): row-major flat element list plus
dimensions.  Out-of-range element reads (a panic in Rust, never reached in
the embedded operations) read as `0`. -/
structure Matrix where
  elems : List ℚ
  width : Nat
  height : Nat
deriving Repr, DecidableEq

namespace Matrix

/-- `Matrix::get(row, column)`: `elems[row * width + column]`. -/
def get (m : Matrix) (row column : Nat) : ℚ :=
  m.elems.getD (row * m.width + column) 0

/-- `Matrix::set(row, column, val)`. -/
def set (m : Matrix) (row column : Nat) (val : ℚ) : Matrix :=
  ⟨m.elems.set (row * m.width + column) val, m.width, m.height⟩

/-- `Matrix::new(width, height)`: the zero matrix. -/
def new (width height : Nat) : Matrix :=
  ⟨List.replicate (width * height) 0, width, height⟩

/-- `Matrix::identity(width)`. -/
def identity (width : Nat) : Matrix :=
  ⟨(List.range width).foldl (fun e i => e.set (i * width + i) 1)
    (List.replicate (width * width) 0), width, width⟩

/-- `Matrix::scalar(x, width)`: the source fills every cell with `x`, not
just the diagonal. -/
def scalar (x : ℚ) (width : Nat) : Matrix :=
  ⟨List.replicate (width * width) x, width, width⟩

/-- `Matrix::from_vec(elems, width)`: `none` models the panic of
`elems.len() % 0` when `width = 0`. -/
def from_vec (elems : List ℚ) (width : Nat) : Option (Except MatrixError Matrix) :=
  if width = 0 then none
  else if elems.length % width ≠ 0 then some (.error .SizeMismatch)
  else some (.ok ⟨elems, width, elems.length / width⟩)

/-- `Matrix::transpose()`: writes into a scratch buffer and rebuilds via
`from_vec(a, height).unwrap()`; `none` models the panics (unreachable for
nonzero dimensions). -/
def transpose (m : Matrix) : Option Matrix :=
  let a := (List.range m.height).foldl
    (fun a i =>
      (List.range m.width).foldl
        (fun a j => a.set (j * m.height + i) (m.get i j)) a)
    (List.replicate (m.width * m.height) 0)
  match from_vec a m.height with
  | some (.ok t) => some t
  | _ => none

/-- `Matrix::column(column)`: an `height × 1` matrix. -/
def column (m : Matrix) (col : Nat) : Matrix :=
  ⟨(List.range m.height).map (fun i => m.get i col), 1, m.height⟩

/-- `Matrix::norm_squared()`: sum of `norm_squared` over the flat list. -/
def matNormSq (m : Matrix) : ℚ :=
  (List.range (m.width * m.height)).foldl (fun sum i => sum + normSq (m.elems.getD i 0)) 0

/-- `Matrix::norm()`. -/
def norm (m : Matrix) : ℚ := Rat.sqrt (matNormSq m)

/-- `Div<T> for &Matrix`: elementwise division by a scalar. -/
def divScalar (m : Matrix) (rhs : ℚ) : Matrix :=
  ⟨m.elems.map (· / rhs), m.width, m.height⟩

end Matrix

/-- `Polynome<T>` (src/poly.rs) at `T = ℚ`: ascending coefficients. -/
structure Polynome where
  coefs : List ℚ
deriving Repr, DecidableEq

namespace Polynome

/-- `Polynome::new()`. -/
def new : Polynome := ⟨[]⟩

/-- `Polynome::from_coefs`. -/
def from_coefs (coefs : List ℚ) : Polynome := ⟨coefs⟩

/-- `Polynome::get(power)`: the additive identity out of range. -/
def get (p : Polynome) (power : Nat) : ℚ := p.coefs.getD power 0

/-- `Polynome::set(power, val)`: writes in place when `power` is within the
backing vector; otherwise grows (zero-padded) only when `val` is nonzero,
silently dropping out-of-range zero writes. -/
def set (p : Polynome) (power : Nat) (val : ℚ) : Polynome :=
  if p.coefs.length ≤ power then
    if val ≠ 0 then ⟨(listResizeQ p.coefs (power + 1)).set power val⟩ else p
  else ⟨p.coefs.set power val⟩

end Polynome

/-- `add_poly` (src/poly.rs): coefficientwise up to the longer length. -/
def add_poly (a b : Polynome) : Polynome :=
  (List.range (max a.coefs.length b.coefs.length)).foldl
    (fun res i => res.set i (a.get i + b.get i)) Polynome.new

/-- `sub_poly` (src/poly.rs). -/
def sub_poly (a b : Polynome) : Polynome :=
  (List.range (max a.coefs.length b.coefs.length)).foldl
    (fun res i => res.set i (a.get i - b.get i)) Polynome.new

/-- `mul_poly` (src/poly.rs): full convolution, both index loops running
from the highest coefficient down. -/
def mul_poly (a b : Polynome) : Polynome :=
  (List.range a.coefs.length).foldl
    (fun res k =>
      let i := a.coefs.length - k - 1
      (List.range b.coefs.length).foldl
        (fun res k' =>
          let j := b.coefs.length - k' - 1
          res.set (i + j) (res.get (i + j) + a.get i * b.get j)) res)
    Polynome.new

/-- `Mul<T> for &Polynome`: coefficientwise scalar multiple
(`res.push(c * rhs)`). -/
def polyMulScalar (p : Polynome) (rhs : ℚ) : Polynome :=
  ⟨p.coefs.map (· * rhs)⟩

/-- `is_tridiagonal` (src/eigen.rs): every entry off the three central
diagonals must have `norm_squared` not exceeding the threshold. -/
def is_tridiagonal (mat : Matrix) (closeEnoughToZero : ℚ) : Bool :=
  (List.range mat.height).all fun i =>
    (List.range mat.width).all fun j =>
      if i = j ∨ (0 < j ∧ j - 1 = i) ∨ (0 < i ∧ i - 1 = j) then true
      else !(decide (normSq (mat.get i j) > closeEnoughToZero))

/-- `characteristic_polynomial` (src/eigen.rs).  The `0.0001` threshold is
the rational `1/10000` (the `f32` literal rounds, but no theorem below
depends on entries near the threshold).  Width ≥ 3 runs the three-term
recurrence, combining `Polynome` values with `mul_poly`, the scalar
multiple and `sub_poly`, and pops the last entry. -/
def characteristic_polynomial (mat : Matrix) : Except MatrixError Polynome :=
  if mat.width ≠ mat.height then .error .NotSquare
  else if !(is_tridiagonal mat (1 / 10000)) then .error .NotTridiagonal
  else
    match mat.width with
    | 0 => .ok (Polynome.from_coefs [0])
    | 1 => .ok (Polynome.from_coefs [-(mat.get 0 0), 1])
    | 2 =>
      let a := mat.get 0 0
      let b := mat.get 0 1
      let c := mat.get 1 0
      let d := mat.get 1 1
      .ok (Polynome.from_coefs [a * d - c * b, (d + a) * (-1), 1])
    | _ =>
      let a := mat.get 0 0
      let b := mat.get 0 1
      let c := mat.get 1 0
      let d := mat.get 1 1
      let p : List Polynome :=
        [Polynome.from_coefs [a, -1],
         Polynome.from_coefs [a * d - c * b, (d + a) * (-1), 1]]
      let p := (List.range' 2 (mat.width - 2)).foldl
        (fun p i =>
          let p1 := Polynome.from_coefs [mat.get i i, -1]
          let p2 := mat.get i (i - 1) * mat.get (i - 1) i
          let p3 := sub_poly (mul_poly (p.getD (i - 1) Polynome.new) p1)
            (polyMulScalar (p.getD (i - 2) Polynome.new) p2)
          p ++ [p3]) p
      .ok (p.getLastD Polynome.new)

/-! Evaluation semantics for `Polynome` and correctness of the coefficient
operations, used to relate the characteristic-polynomial loop to the
spec's recurrence. -/

/-- The polynomial function an ascending coefficient list denotes (Horner
evaluation). -/
def evalPoly (p : Polynome) (x : ℚ) : ℚ :=
  p.coefs.foldr (fun c acc => c + x * acc) 0

theorem getD_set_q (l : List ℚ) (i j : Nat) (v : ℚ) :
    (l.set i v).getD j 0 = if j = i ∧ i < l.length then v else l.getD j 0 := by
  by_cases hji : j = i
  · subst hji
    by_cases hi : j < l.length
    · rw [if_pos ⟨rfl, hi⟩]
      rw [List.getD_eq_getElem?_getD, List.getElem?_set_self hi]
      rfl
    · rw [if_neg (fun h => hi h.2), List.set_eq_of_length_le (by omega)]
  · rw [if_neg (fun h => hji h.1), List.getD_eq_getElem?_getD,
      List.getElem?_set_ne (fun h => hji h.symm), ← List.getD_eq_getElem?_getD]

theorem Polynome.length_set_le (p : Polynome) (i : Nat) (v : ℚ) :
    (p.set i v).coefs.length ≤ max p.coefs.length (i + 1) := by
  unfold Polynome.set
  by_cases hlen : p.coefs.length ≤ i
  · by_cases hv : v ≠ 0
    · rw [if_pos hlen, if_pos hv]
      show (List.set _ i v).length ≤ _
      rw [List.length_set]
      unfold listResizeQ
      rw [List.length_append, List.length_take, List.length_replicate]
      omega
    · rw [if_pos hlen, if_neg hv]
      omega
  · rw [if_neg hlen]
    show (List.set _ i v).length ≤ _
    rw [List.length_set]
    omega

theorem Polynome.get_set (p : Polynome) (i : Nat) (v : ℚ) (j : Nat) :
    (p.set i v).get j = if j = i then v else p.get j := by
  unfold Polynome.set Polynome.get
  by_cases hlen : p.coefs.length ≤ i
  · by_cases hv : v ≠ 0
    · rw [if_pos hlen, if_pos hv]
      show (List.set _ i v).getD j 0 = _
      have hresize : (listResizeQ p.coefs (i + 1)).length = i + 1 := by
        unfold listResizeQ
        rw [List.length_append, List.length_take, List.length_replicate]
        omega
      rw [getD_set_q]
      by_cases hji : j = i
      · rw [if_pos ⟨hji, by omega⟩, if_pos hji]
      · rw [if_neg (fun h => hji h.1), if_neg hji]
        unfold listResizeQ
        by_cases hj : j < p.coefs.length
        · rw [List.getD_append _ _ _ _ (by rw [List.length_take]; omega),
            List.getD_eq_getElem _ _ (by rw [List.length_take]; omega),
            List.getD_eq_getElem _ _ hj]
          simp [List.getElem_take]
        · rw [List.getD_eq_default _ _ (le_of_not_lt hj)]
          by_cases hj2 : j < i + 1
          · rw [List.getD_append_right _ _ _ _ (by rw [List.length_take]; omega)]
            rw [List.getD_eq_getElem?_getD, List.getElem?_replicate]
            split <;> rfl
          · rw [List.getD_eq_default]
            rw [List.length_append, List.length_take, List.length_replicate]
            omega
    · rw [if_pos hlen, if_neg hv]
      push_neg at hv
      subst hv
      by_cases hji : j = i
      · rw [if_pos hji, hji, List.getD_eq_default _ _ (by omega)]
      · rw [if_neg hji]
  · rw [if_neg hlen]
    show (List.set _ i v).getD j 0 = _
    rw [getD_set_q]
    by_cases hji : j = i
    · rw [if_pos ⟨hji, lt_of_not_le hlen⟩, if_pos hji]
    · rw [if_neg (fun h => hji h.1), if_neg hji]

theorem evalPoly_eq_sum (p : Polynome) (x : ℚ) :
    evalPoly p x = ∑ i in Finset.range p.coefs.length, p.get i * x ^ i := by
  unfold evalPoly Polynome.get
  induction p.coefs with
  | nil => simp
  | cons c cs ih =>
    rw [List.foldr_cons, ih, List.length_cons, Finset.sum_range_succ']
    simp only [List.getD_cons_succ, List.getD_cons_zero, pow_succ, pow_zero]
    rw [Finset.mul_sum, add_comm]
    congr 1
    · apply Finset.sum_congr rfl
      intro i _
      ring
    · ring

theorem evalPoly_eq_sum_of_le (p : Polynome) (x : ℚ) {N : Nat}
    (h : p.coefs.length ≤ N) :
    evalPoly p x = ∑ i in Finset.range N, p.get i * x ^ i := by
  rw [evalPoly_eq_sum]
  apply Finset.sum_subset
  · intro i hi
    simp only [Finset.mem_range] at hi ⊢
    omega
  · intro i _ hi
    simp only [Finset.mem_range, not_lt] at hi
    unfold Polynome.get
    rw [List.getD_eq_default _ _ (by omega)]
    ring

theorem evalPoly_set (p : Polynome) (k : Nat) (v : ℚ) (x : ℚ) :
    evalPoly (p.set k v) x = evalPoly p x + (v - p.get k) * x ^ k := by
  set N := max (max p.coefs.length ((p.set k v).coefs.length)) (k + 1) with hN
  have h1 : p.coefs.length ≤ N := by omega
  have h2 : (p.set k v).coefs.length ≤ N := by omega
  have hk : k < N := by omega
  rw [evalPoly_eq_sum_of_le p x h1, evalPoly_eq_sum_of_le (p.set k v) x h2]
  have hsplit : ∀ i, (p.set k v).get i * x ^ i
      = p.get i * x ^ i + (if i = k then (v - p.get k) * x ^ k else 0) := by
    intro i
    rw [Polynome.get_set]
    by_cases hik : i = k
    · subst hik
      rw [if_pos rfl, if_pos rfl]
      ring
    · rw [if_neg hik, if_neg hik]
      ring
  rw [Finset.sum_congr rfl (fun i _ => hsplit i), Finset.sum_add_distrib,
    Finset.sum_ite_eq' (Finset.range N) k (fun _ => (v - p.get k) * x ^ k),
    if_pos (Finset.mem_range.mpr hk)]

theorem buildPoly_get (f : Nat → ℚ) (n j : Nat) :
    ((List.range n).foldl (fun res i => res.set i (f i)) Polynome.new).get j
      = if j < n then f j else 0 := by
  induction n with
  | zero => simp [Polynome.new, Polynome.get]
  | succ n ih =>
    rw [List.range_succ, List.foldl_append, List.foldl_cons, List.foldl_nil,
      Polynome.get_set]
    by_cases hj : j = n
    · subst hj
      simp
    · rw [if_neg hj, ih]
      by_cases h1 : j < n
      · rw [if_pos h1, if_pos (by omega)]
      · rw [if_neg h1, if_neg (by omega)]

theorem buildPoly_length (f : Nat → ℚ) (n : Nat) :
    ((List.range n).foldl (fun res i => res.set i (f i)) Polynome.new).coefs.length
      ≤ n := by
  induction n with
  | zero => simp [Polynome.new]
  | succ n ih =>
    rw [List.range_succ, List.foldl_append, List.foldl_cons, List.foldl_nil]
    have := Polynome.length_set_le
      ((List.range n).foldl (fun res i => res.set i (f i)) Polynome.new) n (f n)
    omega

theorem evalPoly_build (f : Nat → ℚ) (n : Nat) (x : ℚ) :
    evalPoly ((List.range n).foldl (fun res i => res.set i (f i)) Polynome.new) x
      = ∑ i in Finset.range n, f i * x ^ i := by
  rw [evalPoly_eq_sum_of_le _ x (buildPoly_length f n)]
  apply Finset.sum_congr rfl
  intro i hi
  rw [buildPoly_get, if_pos (Finset.mem_range.mp hi)]

theorem evalPoly_add_poly (a b : Polynome) (x : ℚ) :
    evalPoly (add_poly a b) x = evalPoly a x + evalPoly b x := by
  unfold add_poly
  rw [evalPoly_build, evalPoly_eq_sum_of_le a x (le_max_left _ _),
    evalPoly_eq_sum_of_le b x (le_max_right _ _), ← Finset.sum_add_distrib]
  apply Finset.sum_congr rfl
  intro i _
  ring

theorem evalPoly_sub_poly (a b : Polynome) (x : ℚ) :
    evalPoly (sub_poly a b) x = evalPoly a x - evalPoly b x := by
  unfold sub_poly
  rw [evalPoly_build, evalPoly_eq_sum_of_le a x (le_max_left _ _),
    evalPoly_eq_sum_of_le b x (le_max_right _ _), ← Finset.sum_sub_distrib]
  apply Finset.sum_congr rfl
  intro i _
  ring

theorem evalPoly_mulScalar (p : Polynome) (c x : ℚ) :
    evalPoly (polyMulScalar p c) x = evalPoly p x * c := by
  unfold polyMulScalar evalPoly
  induction p.coefs with
  | nil => simp
  | cons d ds ih =>
    simp only [List.map_cons, List.foldr_cons, ih]
    ring

theorem mulInner_eval (aq bq : Polynome) (i : Nat) (x : ℚ) (l : List Nat)
    (p0 : Polynome) :
    evalPoly (l.foldl (fun res k' =>
        let j := bq.coefs.length - k' - 1
        res.set (i + j) (res.get (i + j) + aq.get i * bq.get j)) p0) x
      = evalPoly p0 x
        + aq.get i * x ^ i
          * (l.map (fun k' => bq.get (bq.coefs.length - k' - 1)
              * x ^ (bq.coefs.length - k' - 1))).sum := by
  induction l generalizing p0 with
  | nil => simp
  | cons t ts ih =>
    rw [List.foldl_cons]
    dsimp only
    rw [ih, evalPoly_set, List.map_cons, List.sum_cons]
    ring

theorem mulOuter_eval (aq bq : Polynome) (x : ℚ) (l : List Nat) (p0 : Polynome) :
    evalPoly (l.foldl (fun res k =>
        let i := aq.coefs.length - k - 1
        (List.range bq.coefs.length).foldl (fun res k' =>
          let j := bq.coefs.length - k' - 1
          res.set (i + j) (res.get (i + j) + aq.get i * bq.get j)) res) p0) x
      = evalPoly p0 x
        + (l.map (fun k => aq.get (aq.coefs.length - k - 1)
            * x ^ (aq.coefs.length - k - 1))).sum
          * ((List.range bq.coefs.length).map
              (fun k' => bq.get (bq.coefs.length - k' - 1)
                * x ^ (bq.coefs.length - k' - 1))).sum := by
  induction l generalizing p0 with
  | nil => simp
  | cons t ts ih =>
    rw [List.foldl_cons]
    dsimp only
    rw [ih, mulInner_eval, List.map_cons, List.sum_cons]
    ring

theorem listSum_range (f : Nat → ℚ) (n : Nat) :
    ((List.range n).map f).sum = ∑ i in Finset.range n, f i := by
  induction n with
  | zero => simp
  | succ n ih =>
    rw [List.range_succ, List.map_append, List.sum_append, Finset.sum_range_succ, ih]
    simp

theorem revSum_eq_evalPoly (p : Polynome) (x : ℚ) :
    ((List.range p.coefs.length).map (fun k => p.get (p.coefs.length - k - 1)
      * x ^ (p.coefs.length - k - 1))).sum = evalPoly p x := by
  rw [listSum_range]
  calc ∑ k in Finset.range p.coefs.length,
        p.get (p.coefs.length - k - 1) * x ^ (p.coefs.length - k - 1)
      = ∑ k in Finset.range p.coefs.length,
          (fun i => p.get i * x ^ i) (p.coefs.length - 1 - k) := by
        apply Finset.sum_congr rfl
        intro k _
        simp only
        rw [show p.coefs.length - k - 1 = p.coefs.length - 1 - k by omega]
    _ = ∑ i in Finset.range p.coefs.length, p.get i * x ^ i :=
        Finset.sum_range_reflect (fun i => p.get i * x ^ i) p.coefs.length
    _ = evalPoly p x := (evalPoly_eq_sum p x).symm

theorem evalPoly_mul_poly (aq bq : Polynome) (x : ℚ) :
    evalPoly (mul_poly aq bq) x = evalPoly aq x * evalPoly bq x := by
  unfold mul_poly
  rw [mulOuter_eval, revSum_eq_evalPoly, revSum_eq_evalPoly,
    show evalPoly Polynome.new x = 0 from rfl, zero_add]

/-- Modelled from the spec (§4.9): the determinant recurrence as functions
of `λ`, 0-indexed.  `specD mat 0` is the spec's `D₁ = a₀₀ − λ`,
`specD mat 1` its `D₂` (the 2×2 expansion `ad − cb − (a+d)λ + λ²`), and
`specD mat i` is the entry built from diagonal element `a_ii`,
`subᵢ = A[i,i−1]`, `superᵢ = A[i−1,i]`; the characteristic polynomial of
an `n × n` matrix is `specD mat (n−1)`. -/
def specD (mat : Matrix) : Nat → ℚ → ℚ
  | 0 => fun lam => mat.get 0 0 - lam
  | 1 => fun lam =>
      (mat.get 0 0 * mat.get 1 1 - mat.get 1 0 * mat.get 0 1)
        - (mat.get 1 1 + mat.get 0 0) * lam + lam ^ 2
  | (i + 2) => fun lam =>
      (mat.get (i + 2) (i + 2) - lam) * specD mat (i + 1) lam
        - (mat.get (i + 2) (i + 1) * mat.get (i + 1) (i + 2)) * specD mat i lam

theorem getLastD_eq_getD {α : Type} (l : List α) (d : α) :
    l.getLastD d = l.getD (l.length - 1) d := by
  rw [List.getLastD_eq_getLast?, List.getLast?_eq_getElem?, List.getD_eq_getElem?_getD]

/-- The characteristic-polynomial loop (the `for i in 2..width` fold)
satisfies the spec's recurrence: after folding `i = 2, …, m+1`, the list
holds `m + 2` polynomials whose denotations are `specD mat 0 … specD mat
(m+1)`. -/
theorem charLoop_spec (mat : Matrix) (m : Nat) :
    ((List.range' 2 m).foldl
      (fun p i =>
        let p1 := Polynome.from_coefs [mat.get i i, -1]
        let p2 := mat.get i (i - 1) * mat.get (i - 1) i
        let p3 := sub_poly (mul_poly (p.getD (i - 1) Polynome.new) p1)
          (polyMulScalar (p.getD (i - 2) Polynome.new) p2)
        p ++ [p3])
      [Polynome.from_coefs [mat.get 0 0, -1],
       Polynome.from_coefs [mat.get 0 0 * mat.get 1 1 - mat.get 1 0 * mat.get 0 1,
         (mat.get 1 1 + mat.get 0 0) * (-1), 1]]).length = m + 2 ∧
    ∀ k < m + 2, ∀ lam : ℚ,
      evalPoly (((List.range' 2 m).foldl
        (fun p i =>
          let p1 := Polynome.from_coefs [mat.get i i, -1]
          let p2 := mat.get i (i - 1) * mat.get (i - 1) i
          let p3 := sub_poly (mul_poly (p.getD (i - 1) Polynome.new) p1)
            (polyMulScalar (p.getD (i - 2) Polynome.new) p2)
          p ++ [p3])
        [Polynome.from_coefs [mat.get 0 0, -1],
         Polynome.from_coefs [mat.get 0 0 * mat.get 1 1 - mat.get 1 0 * mat.get 0 1,
           (mat.get 1 1 + mat.get 0 0) * (-1), 1]]).getD k Polynome.new) lam
        = specD mat k lam := by
  induction m with
  | zero =>
    refine ⟨rfl, ?_⟩
    intro k hk lam
    interval_cases k
    · show evalPoly (Polynome.from_coefs [mat.get 0 0, -1]) lam = _
      unfold evalPoly Polynome.from_coefs specD
      simp only [List.foldr_cons, List.foldr_nil]
      ring
    · show evalPoly (Polynome.from_coefs [_, _, _]) lam = _
      unfold evalPoly Polynome.from_coefs specD
      simp only [List.foldr_cons, List.foldr_nil]
      ring
  | succ m ih =>
    obtain ⟨ihlen, ihval⟩ := ih
    dsimp only at ihlen ihval ⊢
    rw [show List.range' 2 (m + 1) = List.range' 2 m ++ [2 + m] from
      by rw [List.range'_concat]; norm_num]
    rw [List.foldl_append, List.foldl_cons, List.foldl_nil]
    constructor
    · rw [List.length_append, ihlen]
      rfl
    · intro k hk lam
      by_cases hklt : k < m + 2
      · rw [List.getD_append _ _ _ _ (by rw [ihlen]; omega)]
        exact ihval k hklt lam
      · have hkeq : k = m + 2 := by omega
        subst hkeq
        have h1 : evalPoly (Polynome.from_coefs [mat.get (m + 2) (m + 2), -1]) lam
            = mat.get (m + 2) (m + 2) - lam := by
          unfold evalPoly Polynome.from_coefs
          simp only [List.foldr_cons, List.foldr_nil]
          ring
        rw [List.getD_append_right _ _ _ _ (by rw [ihlen]), ihlen]
        rw [show m + 2 - (m + 2) = 0 from by omega]
        show evalPoly (sub_poly _ _) lam = _
        rw [evalPoly_sub_poly, evalPoly_mul_poly, evalPoly_mulScalar]
        simp only [show (2 : Nat) + m = m + 2 from by omega,
          show (1 : Nat) + m = m + 1 from by omega,
          show m + 2 - 1 = m + 1 from by omega,
          show m + 2 - 2 = m from by omega]
        rw [ihval (m + 1) (by omega) lam, ihval m (by omega) lam]
        rw [show specD mat (m + 2) lam
            = (mat.get (m + 2) (m + 2) - lam) * specD mat (m + 1) lam
              - (mat.get (m + 2) (m + 1) * mat.get (m + 1) (m + 2)) * specD mat m lam
          from rfl]
        rw [h1]
        ring

/-- The spec's concrete tridiagonal example `[[2,1,0],[1,2,1],[0,1,2]]`. -/
def exTridiag : Matrix := ⟨[2, 1, 0, 1, 2, 1, 0, 1, 2], 3, 3⟩

/-- The spec's example matrix passes the tridiagonality check. -/
theorem extri_tri : is_tridiagonal exTridiag (1 / 10000) = true := by
  norm_num [is_tridiagonal, exTridiag, Matrix.get, normSq, List.range_succ]

set_option maxHeartbeats 1000000 in
/-- C1 — for every square tridiagonal matrix with more than two rows,
`characteristic_polynomial` returns the polynomial given by the spec's
determinant recurrence (`specD`, starting from `a₀₀ − λ` and the 2×2
expansion, finishing with index `n−1`), and on the concrete example
`[[2,1,0],[1,2,1],[0,1,2]]` it returns ascending coefficients
`[4, -10, 6, -1]`. -/
theorem claim_C1 :
    (∀ mat : Matrix, 2 < mat.width → mat.width = mat.height →
      is_tridiagonal mat (1 / 10000) = true →
      ∃ p, characteristic_polynomial mat = .ok p ∧
        ∀ lam : ℚ, evalPoly p lam = specD mat (mat.width - 1) lam) ∧
    characteristic_polynomial exTridiag = .ok (Polynome.from_coefs [4, -10, 6, -1]) := by
  constructor
  · intro mat h2 hsq htri
    have hne : ¬ mat.width ≠ mat.height := fun h => h hsq
    have htri' : ¬ (!(is_tridiagonal mat (1 / 10000))) = true := by rw [htri]; decide
    unfold characteristic_polynomial
    rw [if_neg hne, if_neg htri']
    split
    · omega
    · omega
    · omega
    · dsimp only
      refine ⟨_, rfl, ?_⟩
      intro lam
      obtain ⟨hlen, hval⟩ := charLoop_spec mat (mat.width - 2)
      rw [getLastD_eq_getD, hlen]
      rw [show mat.width - 2 + 2 - 1 = mat.width - 1 from by omega]
      exact hval (mat.width - 1) (by omega) lam
  · have h1 : mul_poly (Polynome.from_coefs [3, -4, 1]) (Polynome.from_coefs [2, -1])
        = Polynome.from_coefs [6, -11, 6, -1] := by
      norm_num [mul_poly, Polynome.set, Polynome.get, Polynome.new, Polynome.from_coefs,
        listResizeQ, List.range_succ, List.foldl_append, List.replicate_succ,
        List.set_cons_zero, List.set_cons_succ]
    have h2 : polyMulScalar (Polynome.from_coefs [2, -1]) 1 = Polynome.from_coefs [2, -1] := by
      norm_num [polyMulScalar, Polynome.from_coefs]
    have h3 : sub_poly (Polynome.from_coefs [6, -11, 6, -1]) (Polynome.from_coefs [2, -1])
        = Polynome.from_coefs [4, -10, 6, -1] := by
      norm_num [sub_poly, Polynome.set, Polynome.get, Polynome.new, Polynome.from_coefs,
        listResizeQ, List.range_succ, List.foldl_append, List.replicate_succ,
        List.set_cons_zero, List.set_cons_succ]
    unfold characteristic_polynomial
    rw [extri_tri]
    norm_num [exTridiag, Matrix.get, List.range', h1, h2, h3, Polynome.new]

/-- C1 (witness) — the general statement instantiated at the concrete
3×3 example. -/
theorem claim_C1_witness :
    2 < exTridiag.width ∧ exTridiag.width = exTridiag.height ∧
    is_tridiagonal exTridiag (1 / 10000) = true ∧
    ∃ p, characteristic_polynomial exTridiag = .ok p ∧
      ∀ lam : ℚ, evalPoly p lam = specD exTridiag (exTridiag.width - 1) lam :=
  ⟨by decide, rfl, extri_tri, claim_C1.1 exTridiag (by decide) rfl extri_tri⟩

/-- A 1×1 matrix. -/
def mk1 (a : ℚ) : Matrix := ⟨[a], 1, 1⟩

/-- C4 (counterexample) — on `[[5]]` the code returns ascending
coefficients `[-5, 1]` (that is `λ − 5`), not `[5, -1]` as claimed. -/
theorem claim_C4_counterexample :
    characteristic_polynomial (mk1 5) = .ok (Polynome.from_coefs [-5, 1]) ∧
    Polynome.from_coefs [(-5 : ℚ), 1] ≠ Polynome.from_coefs [5, -1] :=
  ⟨rfl, by decide⟩

/-- C4 (amended) — for every 1×1 matrix `[[a]]`, the code returns the
polynomial `λ − a`, i.e. ascending coefficients `[-a, 1]` (the source
builds `[-mat.get(0,0), 1]`). -/
theorem claim_C4 (a : ℚ) :
    characteristic_polynomial (mk1 a) = .ok (Polynome.from_coefs [-a, 1]) := rfl

/-- C8 — `Matrix::scalar(x, n)` fills the whole `n × n` matrix with `x`:
every cell, not only the diagonal, reads back as `x`. -/
theorem claim_C8 (x : ℚ) (n i j : Nat) (hi : i < n) (hj : j < n) :
    (Matrix.scalar x n).get i j = x ∧
    (Matrix.scalar x n).width = n ∧ (Matrix.scalar x n).height = n := by
  refine ⟨?_, rfl, rfl⟩
  show (List.replicate (n * n) x).getD (i * n + j) 0 = x
  have hidx : i * n + j < n * n := by
    have h1 : i + 1 ≤ n := hi
    calc i * n + j < i * n + n := by omega
    _ = (i + 1) * n := by ring
    _ ≤ n * n := Nat.mul_le_mul_right n h1
  rw [List.getD_eq_getElem?_getD, List.getElem?_replicate, if_pos hidx]
  rfl

/-- C8 (witness) — an off-diagonal cell of `scalar(5, 2)` holds 5. -/
theorem claim_C8_witness :
    (0 : Nat) < 2 ∧ (1 : Nat) < 2 ∧
    ((Matrix.scalar 5 2).get 0 1 = 5 ∧
      (Matrix.scalar 5 2).width = 2 ∧ (Matrix.scalar 5 2).height = 2) :=
  ⟨by decide, by decide, claim_C8 5 2 0 1 (by decide) (by decide)⟩

/-! `lu_decomposition` (src/lu.rs).  The working buffer `d` starts as the
matrix elements; each layer reads the pivot, aborts with `NotRegular` when
it is zero, fills the current row/column of `l` and `u` and eliminates the
trailing block.  No row exchange exists anywhere in the source. -/

/-- One layer's effect on the working buffer `d` alone (the `j` loop of
src/lu.rs:40-43, iterated by the `i` loop), with the pivot `a` read from the
buffer the layer starts with. -/
def luElimStep (width layer : Nat) (d : List ℚ) : List ℚ :=
  let a := d.getD (layer * width + layer) 0
  (List.range' (layer + 1) (width - (layer + 1))).foldl
    (fun d1 i =>
      (List.range' (layer + 1) (width - (layer + 1))).foldl
        (fun d2 j =>
          d2.set (i * width + j)
            (d2.getD (i * width + j) 0 -
              d2.getD (layer * width + j) 0 * d2.getD (i * width + layer) 0 / a))
        d1)
    d

/-- Modelled from the spec: the state of the unpivoted Doolittle
elimination after the first `k` layers have been eliminated (no pivot
check, no row exchange). -/
def elimState (mat : Matrix) : Nat → List ℚ
  | 0 => mat.elems
  | k + 1 => luElimStep mat.width k (elimState mat k)

/-- Modelled from the spec: the pivot `d[k,k]` read at the start of
layer `k`. -/
def pivotQ (mat : Matrix) (k : Nat) : ℚ :=
  (elimState mat k).getD (k * mat.width + k) 0

/-- The body of one layer of `lu_decomposition` after the pivot check
(src/lu.rs:32-44): sets the diagonal of `l` and `u`, then the `i` loop
fills column `layer` of `l`, row `layer` of `u`, and eliminates the
trailing block of `d`. -/
def luLayerStep (width layer : Nat) (l u d : List ℚ) : List ℚ × List ℚ × List ℚ :=
  let a := d.getD (layer * width + layer) 0
  (List.range' (layer + 1) (width - (layer + 1))).foldl
    (fun (s : List ℚ × List ℚ × List ℚ) i =>
      let l2 := s.1.set (i * width + layer) (s.2.2.getD (i * width + layer) 0 / a)
      let u2 := s.2.1.set (layer * width + i) (s.2.2.getD (layer * width + i) 0)
      let d2 := (List.range' (layer + 1) (width - (layer + 1))).foldl
        (fun d2 j =>
          d2.set (i * width + j)
            (d2.getD (i * width + j) 0 -
              d2.getD (layer * width + j) 0 * d2.getD (i * width + layer) 0 / a))
        s.2.2
      (l2, u2, d2))
    (l.set (layer * width + layer) 1, u.set (layer * width + layer) a, d)

/-- The layer loop of `lu_decomposition` (src/lu.rs:26-45) over the list of
remaining layer indices; the early `return Err(NotRegular)` is the error
branch. -/
def luLoopGo (width : Nat) :
    List Nat → List ℚ → List ℚ → List ℚ → Except MatrixError (List ℚ × List ℚ × List ℚ)
  | [], l, u, d => .ok (l, u, d)
  | layer :: rest, l, u, d =>
    if d.getD (layer * width + layer) 0 = 0 then .error .NotRegular
    else
      let s := luLayerStep width layer l u d
      luLoopGo width rest s.1 s.2.1 s.2.2

/-- `lu_decomposition` (src/lu.rs): `none` models the `from_vec` panic on
`width = 0` (`elems.len() % 0`). -/
def lu_decomposition (mat : Matrix) : Option (Except MatrixError (Matrix × Matrix)) :=
  if mat.width ≠ mat.height then some (.error .NotSquare)
  else
    match luLoopGo mat.width (List.range mat.width)
        (List.replicate (mat.width * mat.width) 0)
        (List.replicate (mat.width * mat.width) 0) mat.elems with
    | .error e => some (.error e)
    | .ok (l, u, _) =>
      match Matrix.from_vec l mat.width with
      | none => none
      | some (.error e) => some (.error e)
      | some (.ok lm) =>
        match Matrix.from_vec u mat.width with
        | none => none
        | some (.error e) => some (.error e)
        | some (.ok um) => some (.ok (lm, um))

/-- In a fold over a triple state whose third component evolves
independently, the third component of the result is the fold of the third
components. -/
theorem foldl_third {α β γ : Type} (f : α × β × γ → Nat → α × β × γ)
    (g : γ → Nat → γ) (hf : ∀ s i, (f s i).2.2 = g s.2.2 i) :
    ∀ (rng : List Nat) (s : α × β × γ), (rng.foldl f s).2.2 = rng.foldl g s.2.2 := by
  intro rng
  induction rng with
  | nil => intro s; rfl
  | cons i rest ih =>
    intro s
    simp only [List.foldl_cons]
    rw [ih, hf]

/-- The `d`-component of one layer's body is exactly `luElimStep`. -/
theorem luLayerStep_d (width layer : Nat) (l u d : List ℚ) :
    (luLayerStep width layer l u d).2.2 = luElimStep width layer d := by
  unfold luLayerStep luElimStep
  exact foldl_third _ _ (fun s i => rfl) _ _

/-- The pivot of layer `k` as read from the elimination state. -/
theorem pivotQ_eq (mat : Matrix) (k : Nat) :
    (elimState mat k).getD (k * mat.width + k) 0 = pivotQ mat k := rfl

/-- One elimination layer advances the elimination state. -/
theorem elimState_succ (mat : Matrix) (k : Nat) :
    luElimStep mat.width k (elimState mat k) = elimState mat (k + 1) := rfl

/-- As long as every pivot from layer `k` on is nonzero, the layer loop
finishes with an `ok`. -/
theorem luLoopGo_ok (mat : Matrix) :
    ∀ (n k : Nat) (l u : List ℚ), k + n = mat.width →
    (∀ j, k ≤ j → j < mat.width → pivotQ mat j ≠ 0) →
    ∃ s, luLoopGo mat.width (List.range' k n) l u (elimState mat k) = .ok s := by
  intro n
  induction n with
  | zero => intro k l u _ _; exact ⟨_, rfl⟩
  | succ n ih =>
    intro k l u hk hnz
    rw [List.range'_succ]
    simp only [luLoopGo]
    rw [pivotQ_eq]
    rw [if_neg (hnz k (Nat.le_refl k) (by omega))]
    rw [luLayerStep_d, elimState_succ]
    exact ih (k + 1) _ _ (by omega) (fun j hj hjw => hnz j (by omega) hjw)

/-- When a first zero pivot exists at layer `m ≥ k`, the layer loop started
at layer `k` aborts with `NotRegular`. -/
theorem luLoopGo_err (mat : Matrix) :
    ∀ (n k : Nat) (l u : List ℚ) (m : Nat), k + n = mat.width →
    k ≤ m → m < mat.width → pivotQ mat m = 0 →
    (∀ j, k ≤ j → j < m → pivotQ mat j ≠ 0) →
    luLoopGo mat.width (List.range' k n) l u (elimState mat k) = .error .NotRegular := by
  intro n
  induction n with
  | zero => intro k l u m hk hkm hmw _ _; omega
  | succ n ih =>
    intro k l u m hk hkm hmw hz hfirst
    rw [List.range'_succ]
    simp only [luLoopGo]
    rw [pivotQ_eq]
    by_cases hpk : pivotQ mat k = 0
    · rw [if_pos hpk]
    · rw [if_neg hpk]
      rw [luLayerStep_d, elimState_succ]
      have hkm' : k < m := by
        rcases Nat.eq_or_lt_of_le hkm with h | h
        · exact absurd hz (h ▸ hpk)
        · exact h
      exact ih (k + 1) _ _ m (by omega) (by omega) hmw hz
        (fun j hj hjm => hfirst j (by omega) hjm)

/-- The layer loop aborts with no error other than `NotRegular`. -/
theorem luLoopGo_err_only (width : Nat) :
    ∀ (rng : List Nat) (l u d : List ℚ) (e : MatrixError),
    luLoopGo width rng l u d = .error e → e = .NotRegular := by
  intro rng
  induction rng with
  | nil =>
    intro l u d e h
    exact Except.noConfusion h
  | cons layer rest ih =>
    intro l u d e h
    simp only [luLoopGo] at h
    by_cases hp : d.getD (layer * width + layer) 0 = 0
    · rw [if_pos hp] at h
      injection h with h
      exact h.symm
    · rw [if_neg hp] at h
      exact ih _ _ _ e h

/-- `Matrix::from_vec` fails with no error other than `SizeMismatch`. -/
theorem from_vec_error {l : List ℚ} {w : Nat} {e : MatrixError}
    (h : Matrix.from_vec l w = some (.error e)) : e = .SizeMismatch := by
  unfold Matrix.from_vec at h
  by_cases h0 : w = 0
  · rw [if_pos h0] at h
    cases h
  · rw [if_neg h0] at h
    by_cases h1 : l.length % w ≠ 0
    · rw [if_pos h1] at h
      injection h with h
      injection h with h
      exact h.symm
    · rw [if_neg h1] at h
      simp at h

/-- The `from_vec` epilogue of `lu_decomposition` never produces the errors
`NotSquare` or `NotRegular`. -/
theorem lu_post_ne (sl su : List ℚ) (w : Nat) (e : MatrixError)
    (he : e ≠ MatrixError.SizeMismatch) :
    (match Matrix.from_vec sl w with
     | none => none
     | some (.error e') => some (.error e')
     | some (.ok lm) =>
       match Matrix.from_vec su w with
       | none => none
       | some (.error e') => some (.error e')
       | some (.ok um) => some (.ok (lm, um))) ≠ some (Except.error e) := by
  cases hfv : Matrix.from_vec sl w with
  | none => simp
  | some r1 =>
    cases r1 with
    | error e1 =>
      have := from_vec_error hfv
      subst this
      intro h
      injection h with h
      injection h with h
      exact he h.symm
    | ok lm =>
      cases hfv2 : Matrix.from_vec su w with
      | none => simp
      | some r2 =>
        cases r2 with
        | error e2 =>
          have := from_vec_error hfv2
          subst this
          intro h
          injection h with h
          injection h with h
          exact he h.symm
        | ok um => simp

/-- The elimination starts from the matrix elements. -/
theorem elimState_zero (mat : Matrix) : elimState mat 0 = mat.elems := rfl

/-- C3 — `lu_decomposition` fails with `NotSquare` exactly when the width
differs from the height, and fails with `NotRegular` exactly when the
unpivoted Doolittle elimination (`elimState`/`pivotQ`, with no row
exchange) meets a first zero pivot `d[k,k]`. -/
theorem claim_C3 (mat : Matrix) :
    (lu_decomposition mat = some (.error MatrixError.NotSquare) ↔
      mat.width ≠ mat.height) ∧
    (lu_decomposition mat = some (.error MatrixError.NotRegular) ↔
      (mat.width = mat.height ∧
        ∃ k, k < mat.width ∧ pivotQ mat k = 0 ∧ ∀ j, j < k → pivotQ mat j ≠ 0)) := by
  by_cases hsq : mat.width = mat.height
  case neg =>
    constructor
    · constructor
      · intro _; exact hsq
      · intro _
        unfold lu_decomposition
        rw [if_pos hsq]
    · constructor
      · intro h
        exfalso
        unfold lu_decomposition at h
        rw [if_pos hsq] at h
        injection h with h
        injection h with h
        exact MatrixError.noConfusion h
      · rintro ⟨h, -⟩
        exact absurd h hsq
  case pos =>
    have hne : ¬ mat.width ≠ mat.height := fun hx => hx hsq
    constructor
    · constructor
      · intro h
        exfalso
        unfold lu_decomposition at h
        rw [if_neg hne] at h
        cases hres : luLoopGo mat.width (List.range mat.width)
            (List.replicate (mat.width * mat.width) 0)
            (List.replicate (mat.width * mat.width) 0) mat.elems with
        | error e =>
          have he := luLoopGo_err_only _ _ _ _ _ _ hres
          subst he
          rw [hres] at h
          have h' : some (Except.error MatrixError.NotRegular) =
              some (Except.error MatrixError.NotSquare) := h
          injection h' with h'
          injection h' with h'
          exact MatrixError.noConfusion h'
        | ok s =>
          obtain ⟨sl, su, sd⟩ := s
          rw [hres] at h
          exact lu_post_ne sl su mat.width MatrixError.NotSquare (by decide) h
      · intro h
        exact absurd h hne
    · constructor
      · intro h
        refine ⟨hsq, ?_⟩
        by_cases hz : ∃ j, pivotQ mat j = 0 ∧ j < mat.width
        · have hfw : Nat.find hz < mat.width := (Nat.find_spec hz).2
          refine ⟨Nat.find hz, hfw, (Nat.find_spec hz).1, ?_⟩
          intro j hj hjz
          exact Nat.find_min hz hj ⟨hjz, by omega⟩
        · exfalso
          unfold lu_decomposition at h
          rw [if_neg hne] at h
          have hnz : ∀ j, 0 ≤ j → j < mat.width → pivotQ mat j ≠ 0 :=
            fun j _ hjw hjz => hz ⟨j, hjz, hjw⟩
          obtain ⟨s, hs⟩ := luLoopGo_ok mat mat.width 0
            (List.replicate (mat.width * mat.width) 0)
            (List.replicate (mat.width * mat.width) 0) (by omega) hnz
          rw [← List.range_eq_range', elimState_zero] at hs
          obtain ⟨sl, su, sd⟩ := s
          rw [hs] at h
          exact lu_post_ne sl su mat.width MatrixError.NotRegular (by decide) h
      · rintro ⟨-, k, hkw, hkz, hfirst⟩
        unfold lu_decomposition
        rw [if_neg hne]
        have hloop := luLoopGo_err mat mat.width 0
          (List.replicate (mat.width * mat.width) 0)
          (List.replicate (mat.width * mat.width) 0) k (by omega) (Nat.zero_le k)
          hkw hkz (fun j _ hjm => hfirst j hjm)
        rw [← List.range_eq_range', elimState_zero] at hloop
        rw [hloop]

/-! The three QR factorisations (src/qr.rs) at the rational instance:
`conjugate` is the identity and a scalar's `norm` is `Rat.sqrt` of its
`norm_squared` (exact at every input the theorems below evaluate). -/

/-- Embeds `mirror_vecs` (src/qr.rs:51-70): reflects every column of
`vecs` across the hyperplane orthogonal to `mirror_direction`. -/
def mirror_vecs (vecs dir : Matrix) : Matrix :=
  (List.range vecs.width).foldl
    (fun vecs i =>
      let dot := (List.range vecs.height).foldl
        (fun dot j => dot + dir.get j 0 * vecs.get j i) 0
      (List.range vecs.height).foldl
        (fun vecs j => vecs.set j i (dir.get j 0 * dot * (-2) + vecs.get j i)) vecs)
    vecs

/-- One iteration of the layer loop of `qr_householder` (src/qr.rs:23-46):
builds the mirror vector from the current column and reflects `r` and `q`. -/
def qrhLayer (width : Nat) (s : Matrix × Matrix) (layer : Nat) : Matrix × Matrix :=
  let r := s.1
  let q := s.2
  let column_norm := (List.range' layer (width - layer)).foldl
    (fun cn i => cn + normSq (r.get i layer)) 0
  let a := r.get layer layer
  let v0 := Matrix.new 1 width
  let v1 := if Rat.sqrt (normSq a) ≠ 0 then
      v0.set layer 0 (a + a / Rat.sqrt (normSq a) * Rat.sqrt column_norm)
    else v0
  let v2 := (List.range' (layer + 1) (width - (layer + 1))).foldl
    (fun v i => v.set i 0 (r.get i layer)) v1
  let v := v2.divScalar (Matrix.norm v2)
  (mirror_vecs r v, mirror_vecs q v)

/-- Embeds `qr_householder` (src/qr.rs:10-49); `none` models the
`transpose` panic (unreachable for nonzero width). -/
def qr_householder (mat : Matrix) : Option (Except MatrixError (Matrix × Matrix)) :=
  if mat.width ≠ mat.height then some (.error .NotSquare)
  else
    let st := (List.range mat.width).foldl (qrhLayer mat.width)
      (mat, Matrix.identity mat.width)
    match (st.2).transpose with
    | none => none
    | some qt => some (.ok (qt, st.1))

/-- Embeds `zero_by_rotation` (src/qr.rs:90-113): one Givens rotation
applied to the rows `col` and `row` of both `r` and `q`. -/
def zero_by_rotation (q r : Matrix) (row col : Nat) : Matrix × Matrix :=
  let a := r.get col col
  let b := r.get row col
  let ab := Rat.sqrt (a * a + b * b)
  let cos := a / ab
  let sin := -b / ab
  (List.range r.width).foldl
    (fun (s : Matrix × Matrix) i =>
      let a1 := s.2.get col i
      let b1 := s.2.get row i
      let r2 := (s.2.set col i (a1 * cos - b1 * sin)).set row i (a1 * sin + b1 * cos)
      let a2 := s.1.get col i
      let b2 := s.1.get row i
      let q2 := (s.1.set col i (a2 * cos - b2 * sin)).set row i (a2 * sin + b2 * cos)
      (q2, r2))
    (q, r)

/-- Embeds `qr_givens` (src/qr.rs:72-88). -/
def qr_givens (mat : Matrix) : Option (Except MatrixError (Matrix × Matrix)) :=
  if mat.width ≠ mat.height then some (.error .NotSquare)
  else
    let st := (List.range' 1 (mat.width - 1)).foldl
      (fun (s : Matrix × Matrix) i =>
        (List.range i).foldl (fun s2 j => zero_by_rotation s2.1 s2.2 i j) s)
      (Matrix.identity mat.width, mat)
    match (st.1).transpose with
    | none => none
    | some qt => some (.ok (qt, st.2))

/-- One pass of the re-orthogonalisation body of `qr_gram_schmidt`
(src/qr.rs:135-147): the accumulated `delta` and the updated column `p`. -/
def gsBody (width j : Nat) (q p : Matrix) : ℚ × Matrix :=
  (List.range j).foldl
    (fun (s : ℚ × Matrix) i =>
      let dot := (List.range width).foldl
        (fun dot k => dot + q.get k i * s.2.get k 0) 0
      (List.range width).foldl
        (fun (s2 : ℚ × Matrix) k =>
          let a := s2.2.get k 0 - q.get k i * dot
          (s2.1 + normSq (a - s2.2.get k 0), s2.2.set k 0 a))
        s)
    (0, p)

/-- The `loop { .. }` of `qr_gram_schmidt` (src/qr.rs:134-151),
fuel-indexed: `none` when the fuel runs out before `delta` drops below
`reortho_epsilon` (the source would keep iterating). -/
def reorthoLoop (width j : Nat) (q : Matrix) (eps : ℚ) : Nat → Matrix → Option Matrix
  | 0, _ => none
  | fuel + 1, p =>
    let s := gsBody width j q p
    if s.1 < eps then some s.2 else reorthoLoop width j q eps fuel s.2

/-- One iteration of the column loop of `qr_gram_schmidt`
(src/qr.rs:131-164). -/
def gsColumn (width : Nat) (mat : Matrix) (eps : ℚ) (fuel : Nat)
    (st : Option (Matrix × Matrix)) (j : Nat) : Option (Matrix × Matrix) :=
  match st with
  | none => none
  | some (q, r) =>
    match reorthoLoop width j q eps fuel (mat.column j) with
    | none => none
    | some p =>
      let q := (List.range width).foldl
        (fun q2 i => q2.set i j (p.get i 0 / Matrix.norm p)) q
      let r := (List.range (j + 1)).foldl
        (fun r2 i =>
          let dot := (List.range width).foldl
            (fun dot k => dot + q.get k i * mat.get k j) 0
          r2.set i j dot) r
      some (q, r)

/-- Embeds `qr_gram_schmidt` (src/qr.rs:115-167) with explicit fuel for
the inner re-orthogonalisation loop. -/
def qr_gram_schmidt (mat : Matrix) (eps : ℚ) (fuel : Nat) :
    Option (Except MatrixError (Matrix × Matrix)) :=
  if mat.width ≠ mat.height then some (.error .NotSquare)
  else
    match (List.range mat.width).foldl (gsColumn mat.width mat eps fuel)
      (some (Matrix.new mat.width mat.width, Matrix.new mat.width mat.width)) with
    | none => none
    | some (q, r) => some (.ok (q, r))

/-- The rational square root of 1. -/
theorem rsqrt_one : Rat.sqrt 1 = 1 := by decide

/-- The rational square root of 4. -/
theorem rsqrt_four : Rat.sqrt 4 = 2 := by
  rw [Rat.sqrt]
  norm_num

/-- The 2×2 identity, elementwise. -/
theorem idTwo_eq : Matrix.identity 2 = ⟨[1, 0, 0, 1], 2, 2⟩ := by decide

/-- Transposing the 2×2 identity. -/
theorem transpose_id2 :
    Matrix.transpose ⟨[1, 0, 0, 1], 2, 2⟩ = some ⟨[1, 0, 0, 1], 2, 2⟩ := by decide

/-- Transposing the negated 2×2 identity. -/
theorem transpose_neg_id2 :
    Matrix.transpose ⟨[-1, 0, 0, -1], 2, 2⟩ = some ⟨[-1, 0, 0, -1], 2, 2⟩ := by decide

set_option maxHeartbeats 1000000 in
/-- Layer 0 of Householder on the identity flips the first basis vector. -/
theorem qrhLayer0_id2 : qrhLayer 2 (⟨[1, 0, 0, 1], 2, 2⟩, ⟨[1, 0, 0, 1], 2, 2⟩) 0
    = (⟨[-1, 0, 0, 1], 2, 2⟩, ⟨[-1, 0, 0, 1], 2, 2⟩) := by
  norm_num [qrhLayer, mirror_vecs, Matrix.get, Matrix.set, Matrix.new, Matrix.norm,
    Matrix.divScalar, Matrix.matNormSq, normSq, List.range_succ, List.range',
    rsqrt_one, rsqrt_four, List.foldl_append, List.replicate_succ,
    List.set_cons_zero, List.set_cons_succ]

set_option maxHeartbeats 1000000 in
/-- Layer 1 of Householder then flips the second basis vector. -/
theorem qrhLayer1_id2 : qrhLayer 2 (⟨[-1, 0, 0, 1], 2, 2⟩, ⟨[-1, 0, 0, 1], 2, 2⟩) 1
    = (⟨[-1, 0, 0, -1], 2, 2⟩, ⟨[-1, 0, 0, -1], 2, 2⟩) := by
  norm_num [qrhLayer, mirror_vecs, Matrix.get, Matrix.set, Matrix.new, Matrix.norm,
    Matrix.divScalar, Matrix.matNormSq, normSq, List.range_succ, List.range',
    rsqrt_one, rsqrt_four, List.foldl_append, List.replicate_succ,
    List.set_cons_zero, List.set_cons_succ]

set_option maxHeartbeats 1000000 in
/-- Householder QR of the 2×2 identity returns the negated identity for
both factors. -/
theorem qr_householder_id2 : qr_householder (Matrix.identity 2)
    = some (.ok (⟨[-1, 0, 0, -1], 2, 2⟩, ⟨[-1, 0, 0, -1], 2, 2⟩)) := by
  rw [qr_householder, idTwo_eq]
  norm_num [List.range_succ, qrhLayer0_id2, qrhLayer1_id2, transpose_neg_id2, idTwo_eq]

set_option maxHeartbeats 1000000 in
/-- The single Givens rotation on the identity is trivial (cosine 1,
sine 0). -/
theorem zero_by_rotation_id2 :
    zero_by_rotation ⟨[1, 0, 0, 1], 2, 2⟩ ⟨[1, 0, 0, 1], 2, 2⟩ 1 0
    = (⟨[1, 0, 0, 1], 2, 2⟩, ⟨[1, 0, 0, 1], 2, 2⟩) := by
  norm_num [zero_by_rotation, Matrix.get, Matrix.set, List.range_succ,
    rsqrt_one, List.foldl_append, List.set_cons_zero, List.set_cons_succ]

set_option maxHeartbeats 1000000 in
/-- Givens QR of the 2×2 identity returns the identity twice. -/
theorem qr_givens_id2 : qr_givens (Matrix.identity 2)
    = some (.ok (Matrix.identity 2, Matrix.identity 2)) := by
  rw [qr_givens, idTwo_eq]
  norm_num [List.range_succ, List.range', zero_by_rotation_id2, transpose_id2, idTwo_eq]

set_option maxHeartbeats 1000000 in
/-- Column 0 of Gram-Schmidt on the identity (any positive fuel). -/
theorem gsColumn0_id2 (n : Nat) :
    gsColumn 2 ⟨[1, 0, 0, 1], 2, 2⟩ (1 / 10) (n + 1)
      (some (Matrix.new 2 2, Matrix.new 2 2)) 0
    = some (⟨[1, 0, 0, 0], 2, 2⟩, ⟨[1, 0, 0, 0], 2, 2⟩) := by
  norm_num [gsColumn, reorthoLoop, gsBody, Matrix.column, Matrix.get, Matrix.set,
    Matrix.new, Matrix.norm, Matrix.matNormSq, normSq, List.range_succ,
    rsqrt_one, List.foldl_append, List.replicate_succ,
    List.set_cons_zero, List.set_cons_succ]

set_option maxHeartbeats 1000000 in
/-- Column 1 of Gram-Schmidt on the identity (any positive fuel). -/
theorem gsColumn1_id2 (n : Nat) :
    gsColumn 2 ⟨[1, 0, 0, 1], 2, 2⟩ (1 / 10) (n + 1)
      (some (⟨[1, 0, 0, 0], 2, 2⟩, ⟨[1, 0, 0, 0], 2, 2⟩)) 1
    = some (⟨[1, 0, 0, 1], 2, 2⟩, ⟨[1, 0, 0, 1], 2, 2⟩) := by
  norm_num [gsColumn, reorthoLoop, gsBody, Matrix.column, Matrix.get, Matrix.set,
    Matrix.new, Matrix.norm, Matrix.matNormSq, normSq, List.range_succ,
    rsqrt_one, List.foldl_append, List.replicate_succ,
    List.set_cons_zero, List.set_cons_succ]

set_option maxHeartbeats 1000000 in
/-- Gram-Schmidt QR of the 2×2 identity returns the identity twice, for
any positive fuel. -/
theorem qr_gram_schmidt_id2 (n : Nat) : qr_gram_schmidt (Matrix.identity 2) (1 / 10) (n + 1)
    = some (.ok (Matrix.identity 2, Matrix.identity 2)) := by
  rw [qr_gram_schmidt, idTwo_eq]
  norm_num [List.range_succ, gsColumn0_id2 n, gsColumn1_id2 n, idTwo_eq]

/-- C2 (counterexample) — Householder QR of the 2×2 identity returns the
negated identity for Q and R, not the identity as claimed. -/
theorem claim_C2_counterexample :
    qr_householder (Matrix.identity 2)
      = some (.ok (⟨[-1, 0, 0, -1], 2, 2⟩, ⟨[-1, 0, 0, -1], 2, 2⟩)) ∧
    (⟨[-1, 0, 0, -1], 2, 2⟩ : Matrix) ≠ Matrix.identity 2 :=
  ⟨qr_householder_id2, by decide⟩

/-- C2 (amended) — on the 2×2 identity, `qr_givens` and `qr_gram_schmidt`
(threshold `0.1`, any positive fuel for the re-orthogonalisation loop)
return `Q = R = I`, but `qr_householder` returns `Q = R = -I`. -/
theorem claim_C2 (fuel : Nat) (hf : 1 ≤ fuel) :
    qr_givens (Matrix.identity 2) = some (.ok (Matrix.identity 2, Matrix.identity 2)) ∧
    qr_gram_schmidt (Matrix.identity 2) (1 / 10) fuel
      = some (.ok (Matrix.identity 2, Matrix.identity 2)) ∧
    qr_householder (Matrix.identity 2)
      = some (.ok (⟨[-1, 0, 0, -1], 2, 2⟩, ⟨[-1, 0, 0, -1], 2, 2⟩)) := by
  obtain ⟨n, rfl⟩ : ∃ n, fuel = n + 1 := ⟨fuel - 1, by omega⟩
  exact ⟨qr_givens_id2, qr_gram_schmidt_id2 n, qr_householder_id2⟩

/-- C2 (witness) — the amended statement at fuel 1. -/
theorem claim_C2_witness :
    1 ≤ 1 ∧
    (qr_givens (Matrix.identity 2) = some (.ok (Matrix.identity 2, Matrix.identity 2)) ∧
    qr_gram_schmidt (Matrix.identity 2) (1 / 10) 1
      = some (.ok (Matrix.identity 2, Matrix.identity 2)) ∧
    qr_householder (Matrix.identity 2)
      = some (.ok (⟨[-1, 0, 0, -1], 2, 2⟩, ⟨[-1, 0, 0, -1], 2, 2⟩))) :=
  ⟨Nat.le_refl 1, claim_C2 1 (Nat.le_refl 1)⟩

end VMLA
